import Mathlib

/-!
# Verification of the MindGym deterministic puzzle core

Shallow embedding of the seeded PRNG (`createSeededRNG`), the Sudoku
generator (`generateBoard`) and the crossword layout engine
(`generateGridLayout`) of the MindGym repository, together with proofs and
refutations of the specified properties.

Conventions: JavaScript 32-bit wrapping arithmetic is modelled over `Nat`
with explicit `% 4294967296` reductions; the float outputs `u / 2^32` are
modelled in `ℚ` (all float operations performed on them by the code are
exact, see the bridging lemmas); seed strings are modelled as their lists
of UTF-16 code units.
-/

namespace MindGym

/-! ## Seeded RNG (`createSeededRNG`, src/services/geminiService.ts lines 11-23) -/

/-- The FNV-1a-style hash loop of `createSeededRNG`:
`h = 2166136261 >>> 0; for (i) h = Math.imul(h ^ seedStr.charCodeAt(i), 16777619)`.
`Math.imul` and the later bit operations reduce everything modulo `2^32`;
we keep the accumulator as its unsigned residue. -/
def fnvHash (codes : List Nat) : Nat :=
  codes.foldl (fun h c => ((h ^^^ c) * 16777619) % 4294967296) 2166136261

/-- `let seed = h` — the internal state captured by the closure returned by
`createSeededRNG`.  In JS the state lives as an exact float; we model it as
an unbounded `Nat` (only its residue mod `2^32` is ever observed). -/
def createSeededRNG (codes : List Nat) : Nat := fnvHash codes

/-- One call of the closure returned by `createSeededRNG`:
```
var t = seed += 0x6D2B79F5;
t = Math.imul(t ^ t >>> 15, t | 1);
t ^= t + Math.imul(t ^ t >>> 7, t | 61);
return ((t ^ t >>> 14) >>> 0) / 4294967296;
```
Returns the 32-bit numerator of the float output, together with the new
state.  All JS bit operations act on the value mod `2^32`; the two `+` are
exact float additions whose results are again reduced mod `2^32` by the
enclosing bit operations. -/
def rngStep (seed : Nat) : Nat × Nat :=
  let s := seed + 0x6D2B79F5
  let t0 := s % 4294967296
  let t1 := ((t0 ^^^ (t0 >>> 15)) * (t0 ||| 1)) % 4294967296
  let t2 := t1 ^^^ ((t1 + ((t1 ^^^ (t1 >>> 7)) * (t1 ||| 61)) % 4294967296) % 4294967296)
  (t2 ^^^ (t2 >>> 14), s)

/-- The float actually returned: `u / 4294967296`, exact in ℚ. -/
def rngFloat (u : Nat) : ℚ := (u : ℚ) / 4294967296

/-- First `n` 32-bit outputs of the stream started at state `s`. -/
def rngOutputs (s : Nat) : Nat → List Nat
  | 0 => []
  | n + 1 =>
    let p := rngStep s
    p.1 :: rngOutputs p.2 n

/-- Two RNG instances with their own states, stepped in an arbitrary
interleaving (`true` = step the first instance): each instance keeps its own
`seed` variable, exactly as each closure returned by `createSeededRNG` owns
its captured state.  Returns the output sequence collected by each. -/
def runPair (s₁ s₂ : Nat) : List Bool → List Nat × List Nat
  | [] => ([], [])
  | true :: rest =>
    let p := rngStep s₁
    let r := runPair p.2 s₂ rest
    (p.1 :: r.1, r.2)
  | false :: rest =>
    let p := rngStep s₂
    let r := runPair s₁ p.2 rest
    (r.1, p.1 :: r.2)

theorem runPair_fst (s₁ s₂ : Nat) (sched : List Bool) :
    (runPair s₁ s₂ sched).1 = rngOutputs s₁ (sched.count true) := by
  induction sched generalizing s₁ s₂ with
  | nil => rfl
  | cons b rest ih =>
    cases b with
    | true => simp [runPair, List.count_cons, rngOutputs, ih]
    | false => simp [runPair, List.count_cons, ih]

theorem runPair_snd (s₁ s₂ : Nat) (sched : List Bool) :
    (runPair s₁ s₂ sched).2 = rngOutputs s₂ (sched.count false) := by
  induction sched generalizing s₁ s₂ with
  | nil => rfl
  | cons b rest ih =>
    cases b with
    | true => simp [runPair, List.count_cons, ih]
    | false => simp [runPair, List.count_cons, rngOutputs, ih]

/-! ## Reference RNG, following the spec's words (§4.1)

The spec describes the same construction but demands "all arithmetic is
modulo 2^32 (unsigned 32-bit wraparound) at every step"; in particular the
state addition is reduced, whereas the code lets the captured `seed` float
grow unboundedly.  The refinement theorem shows the two produce identical
streams. -/

/-- Reference hash, following the spec's words: accumulator `2166136261`;
for each character, XOR with the character code, then multiply by
`16777619` with 32-bit wraparound. -/
def specHash (codes : List Nat) : Nat :=
  codes.foldl (fun acc c => ((acc ^^^ c) * 16777619) % 4294967296) 2166136261

/-- Reference generation step, following the spec's words: add `0x6D2B79F5`
to the state (mod `2^32`); XOR the result with its right-shift by 15,
multiply by (state OR 1); XOR that with the sum of itself and the product
of (value XOR right-shift 7) and (value OR 61); XOR with its right-shift by
14 — all arithmetic modulo `2^32`. -/
def specStep (state : Nat) : Nat × Nat :=
  let s := (state + 0x6D2B79F5) % 4294967296
  let v1 := ((s ^^^ (s >>> 15)) * (s ||| 1)) % 4294967296
  let v2 := (v1 ^^^ ((v1 + ((v1 ^^^ (v1 >>> 7)) * (v1 ||| 61)) % 4294967296) % 4294967296))
  (v2 ^^^ (v2 >>> 14), s)

/-- First `n` 32-bit outputs of the spec's reference stream. -/
def specOutputs (s : Nat) : Nat → List Nat
  | 0 => []
  | n + 1 =>
    let p := specStep s
    p.1 :: specOutputs p.2 n

theorem rngStep_fst_congr {s t : Nat} (h : s % 4294967296 = t % 4294967296) :
    (rngStep s).1 = (rngStep t).1 := by
  have : (s + 0x6D2B79F5) % 4294967296 = (t + 0x6D2B79F5) % 4294967296 := by
    omega
  simp only [rngStep, this]

theorem rngOutputs_congr {s t : Nat} (h : s % 4294967296 = t % 4294967296) :
    ∀ n, rngOutputs s n = rngOutputs t n := by
  intro n
  induction n generalizing s t with
  | zero => rfl
  | succ n ih =>
    have hstep : (s + 0x6D2B79F5) % 4294967296 = (t + 0x6D2B79F5) % 4294967296 := by
      omega
    simp only [rngOutputs, rngStep_fst_congr h]
    exact congrArg _ (ih hstep)

theorem rngOutputs_eq_specOutputs {s t : Nat} (h : s % 4294967296 = t % 4294967296) :
    ∀ n, rngOutputs s n = specOutputs t n := by
  intro n
  induction n generalizing s t with
  | zero => rfl
  | succ n ih =>
    have h1 : (s + 0x6D2B79F5) % 4294967296 = (t + 0x6D2B79F5) % 4294967296 := by
      omega
    have hout : (rngStep s).1 = (specStep t).1 := by
      simp only [rngStep, specStep]
      rw [h1]
    have hst : (rngStep s).2 % 4294967296 = (specStep t).2 % 4294967296 := by
      simp only [rngStep, specStep]
      omega
    simp only [rngOutputs, specOutputs, hout]
    exact congrArg _ (ih hst)

theorem xor_shiftRight_lt {x n k : Nat} (hx : x < 2 ^ n) : x ^^^ (x >>> k) < 2 ^ n :=
  Nat.xor_lt_two_pow hx
    (lt_of_le_of_lt (by rw [Nat.shiftRight_eq_div_pow]; exact Nat.div_le_self _ _) hx)

theorem rngStep_fst_lt (s : Nat) : (rngStep s).1 < 4294967296 := by
  have h32 : (4294967296 : Nat) = 2 ^ 32 := by norm_num
  simp only [rngStep]
  rw [h32]
  refine xor_shiftRight_lt (Nat.xor_lt_two_pow ?_ ?_) <;>
    · rw [← h32]; exact Nat.mod_lt _ (by norm_num)

theorem rngFloat_mem_Ico {u : Nat} (h : u < 4294967296) :
    (0 : ℚ) ≤ rngFloat u ∧ rngFloat u < 1 := by
  constructor
  · exact div_nonneg (by positivity) (by norm_num)
  · rw [rngFloat, div_lt_one (by norm_num)]
    exact_mod_cast h

theorem mem_rngOutputs_lt {u s n : Nat} (h : u ∈ rngOutputs s n) : u < 4294967296 := by
  induction n generalizing s with
  | zero => simp [rngOutputs] at h
  | succ n ih =>
    simp only [rngOutputs, List.mem_cons] at h
    rcases h with h | h
    · exact h ▸ rngStep_fst_lt s
    · exact ih h

/-- C2: two RNG instances independently created from the same seed string
have disjoint state; under any interleaving of their calls, each instance
emits the canonical stream of that seed, so for every `N` the first `N`
outputs of one equal the first `N` outputs of the other. -/
theorem createSeededRNG_pair_deterministic (codes : List Nat) (sched : List Bool) :
    (runPair (createSeededRNG codes) (createSeededRNG codes) sched).1 =
      rngOutputs (createSeededRNG codes) (sched.count true) ∧
    (runPair (createSeededRNG codes) (createSeededRNG codes) sched).2 =
      rngOutputs (createSeededRNG codes) (sched.count false) ∧
    (sched.count true = sched.count false →
      (runPair (createSeededRNG codes) (createSeededRNG codes) sched).1 =
        (runPair (createSeededRNG codes) (createSeededRNG codes) sched).2) := by
  refine ⟨runPair_fst _ _ _, runPair_snd _ _ _, fun h => ?_⟩
  rw [runPair_fst _ _ _, runPair_snd _ _ _, h]

/-- Witness for C2 at seed `"2024-1-1"` and a concrete interleaving. -/
theorem createSeededRNG_pair_deterministic_witness :
    [true, false, true, false].count true = [true, false, true, false].count false ∧
    (runPair (createSeededRNG [50, 48, 50, 52, 45, 49, 45, 49])
        (createSeededRNG [50, 48, 50, 52, 45, 49, 45, 49]) [true, false, true, false]).1 =
      (runPair (createSeededRNG [50, 48, 50, 52, 45, 49, 45, 49])
        (createSeededRNG [50, 48, 50, 52, 45, 49, 45, 49]) [true, false, true, false]).2 :=
  ⟨by decide,
    (createSeededRNG_pair_deterministic [50, 48, 50, 52, 45, 49, 45, 49]
      [true, false, true, false]).2.2 (by decide)⟩

/-- C3: `createSeededRNG` agrees with the reference definition written from
the spec's words: the hashes coincide, the output streams coincide (the
code's unbounded float state is observationally equal to the spec's
state kept modulo `2^32`), and every emitted float lies in `[0, 1)`. -/
theorem createSeededRNG_matches_spec :
    (∀ codes : List Nat, createSeededRNG codes = specHash codes) ∧
    (∀ (codes : List Nat) (n : Nat),
      rngOutputs (createSeededRNG codes) n = specOutputs (specHash codes) n) ∧
    (∀ (codes : List Nat) (n u : Nat), u ∈ rngOutputs (createSeededRNG codes) n →
      (0 : ℚ) ≤ rngFloat u ∧ rngFloat u < 1) := by
  refine ⟨fun codes => rfl, fun codes n => ?_, fun codes n u h => ?_⟩
  · exact rngOutputs_eq_specOutputs rfl n
  · exact rngFloat_mem_Ico (mem_rngOutputs_lt h)

/-- Witness for C3: the first output for seed `"2024-1-1"` is the 32-bit
value `284741506`, and its float lies in `[0, 1)`. -/
theorem createSeededRNG_matches_spec_witness :
    (0 : ℚ) ≤ rngFloat 284741506 ∧ rngFloat 284741506 < 1 :=
  createSeededRNG_matches_spec.2.2 [50, 48, 50, 52, 45, 49, 45, 49] 1 284741506 (by decide)

/-! ## Sudoku generator (`generateBoard` and `shuffle`, src/unnamed/part_002 lines 26-110) -/

/-- `[array[i], array[j]] = [array[j], array[i]]` on a list (identity when an
index is out of range, which never happens in the generator: `j ≤ i < length`). -/
def swapL {α : Type} (a : List α) (i j : Nat) : List α :=
  match a[i]?, a[j]? with
  | some x, some y => (a.set i y).set j x
  | _, _ => a

/-- The Fisher–Yates loop of `shuffle`, with the running index counting
down; at index `i + 1` the swap target is `j = Math.floor(rng() * (i + 2))`,
which is exactly `u * (i + 2) / 2^32` for the 32-bit numerator `u` of the
drawn float (see `floor_mul_rngFloat`). -/
def shuffleAux {α : Type} (s : Nat) (a : List α) : Nat → List α × Nat
  | 0 => (a, s)
  | i + 1 =>
    let p := rngStep s
    let j := p.1 * (i + 2) / 4294967296
    shuffleAux p.2 (swapL a (i + 1) j) i

/-- `shuffle(array, rng)`: Fisher–Yates from `i = length - 1` down to `1`. -/
def shuffle {α : Type} (a : List α) (s : Nat) : List α × Nat :=
  shuffleAux s a (a.length - 1)

/-- `Math.floor(rng() * m)` for a 32-bit numerator `u` equals `u * m / 2^32`
(float products and the division by the power of two are exact here). -/
theorem floor_mul_rngFloat (u m : Nat) :
    ⌊rngFloat u * (m : ℚ)⌋₊ = u * m / 4294967296 := by
  have h : rngFloat u * (m : ℚ) = ((u * m : Nat) : ℚ) / ((4294967296 : Nat) : ℚ) := by
    rw [rngFloat]
    push_cast
    ring
  rw [h, Nat.floor_div_nat, Nat.floor_natCast]

/-- The hardcoded base solution grid of `generateBoard`. -/
def baseGrid : List (List Nat) :=
  [[5, 3, 4, 6, 7, 8, 9, 1, 2], [6, 7, 2, 1, 9, 5, 3, 4, 8], [1, 9, 8, 3, 4, 2, 5, 6, 7],
   [8, 5, 9, 7, 6, 1, 4, 2, 3], [4, 2, 6, 8, 5, 3, 7, 9, 1], [7, 1, 3, 9, 2, 4, 8, 5, 6],
   [9, 6, 1, 5, 3, 7, 2, 8, 4], [2, 8, 7, 4, 1, 9, 6, 3, 5], [3, 4, 5, 2, 8, 6, 1, 7, 9]]

/-- `baseGrid[0].map((_, colIndex) => baseGrid.map(row => row[colIndex]))`. -/
def transposeG (g : List (List Nat)) : List (List Nat) :=
  (List.range (g.headD []).length).map fun c => g.map fun row => row.getD c 0

/-- `rng() > 0.5`, decided on the 32-bit numerator (see `half_lt_rngFloat`);
returns the coin and the advanced state. -/
def coinFlip (s : Nat) : Bool × Nat :=
  let p := rngStep s
  (decide (2147483648 < p.1), p.2)

/-- `rng() > 0.5` holds exactly when the 32-bit numerator exceeds `2^31`. -/
theorem half_lt_rngFloat (u : Nat) : (1 / 2 : ℚ) < rngFloat u ↔ 2147483648 < u := by
  rw [rngFloat, lt_div_iff₀ (by norm_num)]
  have h2 : (1 / 2 : ℚ) * 4294967296 = ((2147483648 : Nat) : ℚ) := by norm_num
  rw [h2, Nat.cast_lt]

/-- One band iteration of steps 2/3 of `generateBoard`: if the coin shows,
shuffle rows `b`, `b+1`, `b+2` and write them back. -/
def bandRowShuffleAt (g : List (List Nat)) (s : Nat) (b : Nat) :
    List (List Nat) × Nat :=
  let p := coinFlip s
  if p.1 then
    let q := shuffle [g.getD b [], g.getD (b + 1) [], g.getD (b + 2) []] p.2
    (((g.set b (q.1.getD 0 [])).set (b + 1) (q.1.getD 1 [])).set (b + 2) (q.1.getD 2 []), q.2)
  else (g, p.2)

/-- The loop `for (b = 0; b < 9; b += 3)` of steps 2/3 of `generateBoard`. -/
def bandRowShuffles (g : List (List Nat)) (s : Nat) : List (List Nat) × Nat :=
  let q0 := bandRowShuffleAt g s 0
  let q3 := bandRowShuffleAt q0.1 q0.2 3
  bandRowShuffleAt q3.1 q3.2 6

/-- Step 4 of `generateBoard`: shuffle the bands `slice(0,3)`, `slice(3,6)`,
`slice(6,9)` and concatenate — unconditionally, there is no coin flip in the
source. -/
def bandsShuffle (g : List (List Nat)) (s : Nat) : List (List Nat) × Nat :=
  let q := shuffle [g.take 3, (g.drop 3).take 3, (g.drop 6).take 3] s
  (q.1.getD 0 [] ++ q.1.getD 1 [] ++ q.1.getD 2 [], q.2)

def nums : List Nat := [1, 2, 3, 4, 5, 6, 7, 8, 9]

/-- `map.get(val)` for the `Map` built by
`nums.forEach((n, i) => map.set(n, permuted[i]))`; the default `0` stands
for JS `undefined` and is never reached on valid grids. -/
def digitMapGet (permuted : List Nat) (v : Nat) : Nat :=
  ((nums.zip permuted).lookup v).getD 0

/-- Step 5 of `generateBoard`: `baseGrid.map(row => row.map(val => map.get(val)))`
— also applied unconditionally in the source. -/
def relabel (g : List (List Nat)) (permuted : List Nat) : List (List Nat) :=
  g.map fun row => row.map (digitMapGet permuted)

/-- Steps 2–5 of `generateBoard` after the optional transpose: row-band
shuffles, transpose, column-band shuffles, transpose back, band shuffle,
digit relabeling. -/
def sudokuTail (g1 : List (List Nat)) (s : Nat) : List (List Nat) × Nat :=
  let q2 := bandRowShuffles g1 s
  let q3 := bandRowShuffles (transposeG q2.1) q2.2
  let q4 := bandsShuffle (transposeG q3.1) q3.2
  let q5 := shuffle nums q4.2
  (relabel q4.1 q5.1, q5.2)

/-- Steps 1–5 of `generateBoard`: the solution grid, together with the RNG
state handed to the masking phase. -/
def generateSolution (codes : List Nat) : List (List Nat) × Nat :=
  let c1 := coinFlip (createSeededRNG codes)
  sudokuTail (if c1.1 then transposeG baseGrid else baseGrid) c1.2

/-- `difficulty === 'Easy' ? 45 : difficulty === 'Medium' ? 35 : 24`. -/
def revealCount (difficulty : String) : Nat :=
  if difficulty = "Easy" then 45 else if difficulty = "Medium" then 35 else 24

/-- `.map((x, i) => f(i, x))` with an explicit running index. -/
def mapIdxFrom {α β : Type} (f : Nat → α → β) : Nat → List α → List β
  | _, [] => []
  | i, a :: t => f i a :: mapIdxFrom f (i + 1) t

/-- The masking map of `generateBoard`:
`baseGrid.map((row, r) => row.map((val, c) => keptIndices.has(r * 9 + c) ? val : null))`. -/
def genPuzzle (kept : List Nat) (sol : List (List Nat)) : List (List (Option Nat)) :=
  mapIdxFrom
    (fun r row => mapIdxFrom (fun c v => if r * 9 + c ∈ kept then some v else none) 0 row)
    0 sol

/-- `generateBoard` (seed and difficulty to solution and puzzle); the kept
indices are the first `cellsToKeep` entries of the shuffled index list. -/
def generateBoard (codes : List Nat) (difficulty : String) :
    List (List Nat) × List (List (Option Nat)) :=
  let sp := generateSolution codes
  let idx := shuffle (List.range 81) sp.2
  let kept := idx.1.take (revealCount difficulty)
  (sp.1, genPuzzle kept sp.1)

/-- The generator that claim C7 describes: identical to `generateSolution`,
except that the band shuffle (transformation d) and the digit relabeling
(transformation e) are also gated by a coin flip `rng() > 0.5`. -/
def generateSolutionClaimed (codes : List Nat) : List (List Nat) × Nat :=
  let s0 := createSeededRNG codes
  let c1 := coinFlip s0
  let g1 := if c1.1 then transposeG baseGrid else baseGrid
  let q2 := bandRowShuffles g1 c1.2
  let q3 := bandRowShuffles (transposeG q2.1) q2.2
  let g3 := transposeG q3.1
  let c4 := coinFlip q3.2
  let q4 := if c4.1 then bandsShuffle g3 c4.2 else (g3, c4.2)
  let c5 := coinFlip q4.2
  if c5.1 then
    let q5 := shuffle nums c5.2
    (relabel q4.1 q5.1, q5.2)
  else (q4.1, c5.2)

/-! ### The shuffle produces a permutation of its input -/

theorem cons_set_perm {α : Type} (c d : α) (t : List α) (m : Nat) (h : t[m]? = some c) :
    (c :: t.set m d).Perm (d :: t) := by
  induction t generalizing m with
  | nil => simp at h
  | cons a t ih =>
    cases m with
    | zero =>
      have ha : a = c := by simpa using h
      rw [← ha, List.set_cons_zero]
      exact List.Perm.swap d a t
    | succ m =>
      have h' : t[m]? = some c := by simpa using h
      have ihm := ih m h'
      rw [List.set_cons_succ]
      exact (List.Perm.swap a c _).trans ((ihm.cons a).trans (List.Perm.swap d a t))

theorem set_set_perm {α : Type} (a : List α) (i j : Nat) (x y : α)
    (hi : a[i]? = some x) (hj : a[j]? = some y) : ((a.set i y).set j x).Perm a := by
  induction a generalizing i j with
  | nil => simp at hi
  | cons hd t ih =>
    cases i with
    | zero =>
      have hx : hd = x := by simpa using hi
      cases j with
      | zero =>
        rw [List.set_cons_zero, List.set_cons_zero, hx]
      | succ j =>
        have hj' : t[j]? = some y := by simpa using hj
        rw [List.set_cons_zero, List.set_cons_succ, hx]
        exact cons_set_perm y x t j hj'
    | succ i =>
      have hi' : t[i]? = some x := by simpa using hi
      cases j with
      | zero =>
        have hy : hd = y := by simpa using hj
        rw [List.set_cons_succ, List.set_cons_zero, hy]
        exact cons_set_perm x y t i hi'
      | succ j =>
        have hj' : t[j]? = some y := by simpa using hj
        rw [List.set_cons_succ, List.set_cons_succ]
        exact (ih i j hi' hj').cons hd

theorem swapL_perm {α : Type} (a : List α) (i j : Nat) : (swapL a i j).Perm a := by
  unfold swapL
  split
  · rename_i x y hi hj
    exact set_set_perm a i j x y hi hj
  · exact List.Perm.refl a

theorem shuffleAux_perm {α : Type} :
    ∀ (n s : Nat) (a : List α), ((shuffleAux s a n).1).Perm a
  | 0, _, a => List.Perm.refl a
  | n + 1, s, a => by
    simp only [shuffleAux]
    exact (shuffleAux_perm n _ _).trans (swapL_perm a (n + 1) _)

theorem shuffle_perm {α : Type} (a : List α) (s : Nat) : ((shuffle a s).1).Perm a :=
  shuffleAux_perm _ s a

theorem shuffle_length {α : Type} (a : List α) (s : Nat) :
    (shuffle a s).1.length = a.length :=
  (shuffle_perm a s).length_eq

theorem map_getD_range {α : Type} (d : α) :
    ∀ l : List α, (List.range l.length).map (fun i => l.getD i d) = l
  | [] => rfl
  | a :: t => by
    rw [List.length_cons, List.range_succ_eq_map, List.map_cons, List.map_map]
    congr 1
    have h : ((fun i => (a :: t).getD i d) ∘ Nat.succ) = fun i => t.getD i d := by
      funext i
      simp [List.getD_cons_succ]
    rw [h]
    exact map_getD_range d t

/-! ### Validity of Sudoku grids -/

/-- A row, column or box contains each of 1–9 exactly once. -/
def validRow (l : List Nat) : Prop := l.Perm [1, 2, 3, 4, 5, 6, 7, 8, 9]

/-- Cell `(r, c)` of a grid. -/
def cellN (g : List (List Nat)) (r c : Nat) : Nat := (g.getD r []).getD c 0

/-- Column `c` of a grid. -/
def colOf (g : List (List Nat)) (c : Nat) : List Nat := g.map fun row => row.getD c 0

/-- The nine entries of box `(bi, bj)` of a grid. -/
def boxOf (g : List (List Nat)) (bi bj : Nat) : List Nat :=
  (((g.drop (3 * bi)).take 3).map fun row => (row.drop (3 * bj)).take 3).flatten

/-- A 9×9 grid where every row, every column and every 3×3 box contains
each of 1–9 exactly once. -/
def validGrid (g : List (List Nat)) : Prop :=
  g.length = 9 ∧ (∀ row ∈ g, row.length = 9) ∧ (∀ row ∈ g, validRow row) ∧
    (∀ c < 9, validRow (colOf g c)) ∧ ∀ bi < 3, ∀ bj < 3, validRow (boxOf g bi bj)

theorem exists_three {α : Type} (l : List α) (h : l.length = 3) :
    ∃ x y z, l = [x, y, z] := by
  rcases l with _ | ⟨x, _ | ⟨y, _ | ⟨z, _ | ⟨w, t⟩⟩⟩⟩ <;> simp_all

theorem exists_nine {α : Type} (l : List α) (h : l.length = 9) :
    ∃ r0 r1 r2 r3 r4 r5 r6 r7 r8, l = [r0, r1, r2, r3, r4, r5, r6, r7, r8] := by
  rcases l with _ | ⟨r0, _ | ⟨r1, _ | ⟨r2, _ | ⟨r3, _ | ⟨r4, _ | ⟨r5, _ | ⟨r6, _ | ⟨r7,
    _ | ⟨r8, _ | ⟨r9, t⟩⟩⟩⟩⟩⟩⟩⟩⟩⟩ <;> simp_all

theorem getD_eq_getElem {α : Type} (l : List α) (i : Nat) (h : i < l.length) (d : α) :
    l.getD i d = l[i] := by
  rw [List.getD_eq_getElem?_getD, List.getElem?_eq_getElem h, Option.getD_some]

theorem getD_map_of_lt {α β : Type} (f : α → β) (l : List α) (i : Nat)
    (h : i < l.length) (d : β) (d' : α) : (l.map f).getD i d = f (l.getD i d') := by
  rw [getD_eq_getElem _ _ (by simpa using h), getD_eq_getElem _ _ h, List.getElem_map]

theorem getD_mem {α : Type} (l : List α) (i : Nat) (h : i < l.length) (d : α) :
    l.getD i d ∈ l := by
  rw [getD_eq_getElem _ _ h]
  exact List.getElem_mem h

theorem drop_take3 {α : Type} (d : α) :
    ∀ (l : List α) (k : Nat), k + 3 ≤ l.length →
      (l.drop k).take 3 = [l.getD k d, l.getD (k + 1) d, l.getD (k + 2) d]
  | l, 0, h => by
    rcases l with _ | ⟨a, _ | ⟨b, _ | ⟨c, t⟩⟩⟩ <;> simp_all
  | a :: t, k + 1, h => by
    simp only [List.drop_succ_cons, List.getD_cons_succ]
    exact drop_take3 d t k (by simpa using h)

theorem perm_nine_transpose {α : Type} [DecidableEq α] (a₀ a₁ a₂ b₀ b₁ b₂ c₀ c₁ c₂ : α) :
    ([a₀, b₀, c₀, a₁, b₁, c₁, a₂, b₂, c₂] : List α).Perm
      [a₀, a₁, a₂, b₀, b₁, b₂, c₀, c₁, c₂] := by
  rw [List.perm_iff_count]
  intro x
  simp only [List.count_cons, List.count_nil]
  ring

/-- On a 9×9 grid the box `(bi, bj)` is the explicit list of its nine cells. -/
theorem boxOf_explicit (g : List (List Nat)) (hl : g.length = 9)
    (hr : ∀ row ∈ g, row.length = 9) (bi bj : Nat) (hbi : bi < 3) (hbj : bj < 3) :
    boxOf g bi bj =
      [cellN g (3 * bi) (3 * bj), cellN g (3 * bi) (3 * bj + 1), cellN g (3 * bi) (3 * bj + 2),
       cellN g (3 * bi + 1) (3 * bj), cellN g (3 * bi + 1) (3 * bj + 1),
       cellN g (3 * bi + 1) (3 * bj + 2),
       cellN g (3 * bi + 2) (3 * bj), cellN g (3 * bi + 2) (3 * bj + 1),
       cellN g (3 * bi + 2) (3 * bj + 2)] := by
  have h3 : 3 * bi + 3 ≤ g.length := by omega
  have hrow : ∀ i, i < 9 → (g.getD i []).length = 9 := fun i hi =>
    hr _ (getD_mem g i (by omega) [])
  have hslice : ∀ i, i < 9 →
      ((g.getD i []).drop (3 * bj)).take 3 =
        [cellN g i (3 * bj), cellN g i (3 * bj + 1), cellN g i (3 * bj + 2)] := by
    intro i hi
    exact drop_take3 0 _ (3 * bj) (by rw [hrow i hi]; omega)
  rw [boxOf, drop_take3 [] g (3 * bi) h3]
  simp only [List.map_cons, List.map_nil, List.flatten]
  rw [hslice (3 * bi) (by omega), hslice (3 * bi + 1) (by omega), hslice (3 * bi + 2) (by omega)]
  simp

theorem colOf_length (g : List (List Nat)) (c : Nat) : (colOf g c).length = g.length :=
  List.length_map _ _

theorem transposeG_eq (g : List (List Nat)) (hl : g.length = 9)
    (hr : ∀ row ∈ g, row.length = 9) :
    transposeG g = (List.range 9).map fun c => colOf g c := by
  obtain ⟨r0, r1, r2, r3, r4, r5, r6, r7, r8, rfl⟩ := exists_nine g hl
  have h0 : r0.length = 9 := hr r0 (by simp)
  simp [transposeG, colOf, h0]

theorem colOf_transposeG (g : List (List Nat)) (hl : g.length = 9)
    (hr : ∀ row ∈ g, row.length = 9) (r : Nat) (hrlt : r < 9) :
    colOf (transposeG g) r = g.getD r [] := by
  rw [transposeG_eq g hl hr, colOf, List.map_map]
  have hfun : ∀ c ∈ List.range 9,
      ((fun row => row.getD r 0) ∘ fun c => colOf g c) c = (g.getD r []).getD c 0 := by
    intro c hc
    simp only [Function.comp_apply]
    rw [colOf, getD_map_of_lt _ g r (by omega) 0 []]
  rw [List.map_congr_left hfun]
  have hlen : (g.getD r []).length = 9 := hr _ (getD_mem g r (by omega) [])
  rw [← hlen, map_getD_range 0 _]

theorem cellN_transposeG (g : List (List Nat)) (hl : g.length = 9)
    (hr : ∀ row ∈ g, row.length = 9) (r c : Nat) (hrlt : r < 9) (hclt : c < 9) :
    cellN (transposeG g) r c = cellN g c r := by
  rw [cellN]
  have h1 : (transposeG g).getD r [] = colOf g r := by
    rw [transposeG_eq g hl hr, getD_map_of_lt _ (List.range 9) r (by simpa using hrlt) [] 0]
    congr 1
    rw [getD_eq_getElem _ _ (by simpa using hrlt), List.getElem_range]
  rw [h1, colOf, getD_map_of_lt _ g c (by omega) 0 [], cellN]

theorem validGrid_transposeG {g : List (List Nat)} (hv : validGrid g) :
    validGrid (transposeG g) := by
  obtain ⟨hl, hr, hrow, hcol, hbox⟩ := hv
  have ht := transposeG_eq g hl hr
  have hlen : (transposeG g).length = 9 := by rw [ht]; simp
  have hshape : ∀ row ∈ transposeG g, row.length = 9 := by
    intro row hrw
    rw [ht] at hrw
    simp only [List.mem_map, List.mem_range] at hrw
    obtain ⟨c, hc, rfl⟩ := hrw
    rw [colOf_length, hl]
  refine ⟨hlen, hshape, ?_, ?_, ?_⟩
  · intro row hrw
    rw [ht] at hrw
    simp only [List.mem_map, List.mem_range] at hrw
    obtain ⟨c, hc, rfl⟩ := hrw
    exact hcol c hc
  · intro c hc
    rw [colOf_transposeG g hl hr c hc]
    exact hrow _ (getD_mem g c (by omega) [])
  · intro bi hbi bj hbj
    have h1 := boxOf_explicit _ hlen hshape bi bj hbi hbj
    have h2 := boxOf_explicit g hl hr bj bi hbj hbi
    have h1' : boxOf (transposeG g) bi bj =
        [cellN g (3 * bj) (3 * bi), cellN g (3 * bj + 1) (3 * bi), cellN g (3 * bj + 2) (3 * bi),
         cellN g (3 * bj) (3 * bi + 1), cellN g (3 * bj + 1) (3 * bi + 1),
         cellN g (3 * bj + 2) (3 * bi + 1),
         cellN g (3 * bj) (3 * bi + 2), cellN g (3 * bj + 1) (3 * bi + 2),
         cellN g (3 * bj + 2) (3 * bi + 2)] := by
      rw [h1,
        cellN_transposeG g hl hr (3 * bi) (3 * bj) (by omega) (by omega),
        cellN_transposeG g hl hr (3 * bi) (3 * bj + 1) (by omega) (by omega),
        cellN_transposeG g hl hr (3 * bi) (3 * bj + 2) (by omega) (by omega),
        cellN_transposeG g hl hr (3 * bi + 1) (3 * bj) (by omega) (by omega),
        cellN_transposeG g hl hr (3 * bi + 1) (3 * bj + 1) (by omega) (by omega),
        cellN_transposeG g hl hr (3 * bi + 1) (3 * bj + 2) (by omega) (by omega),
        cellN_transposeG g hl hr (3 * bi + 2) (3 * bj) (by omega) (by omega),
        cellN_transposeG g hl hr (3 * bi + 2) (3 * bj + 1) (by omega) (by omega),
        cellN_transposeG g hl hr (3 * bi + 2) (3 * bj + 2) (by omega) (by omega)]
    rw [validRow, h1']
    exact (perm_nine_transpose _ _ _ _ _ _ _ _ _).trans (h2 ▸ hbox bj hbj bi hbi)

theorem validGrid_replace0 (x y z r0 r1 r2 r3 r4 r5 r6 r7 r8 : List Nat)
    (hp : ([x, y, z] : List (List Nat)).Perm [r0, r1, r2])
    (hv : validGrid [r0, r1, r2, r3, r4, r5, r6, r7, r8]) :
    validGrid [x, y, z, r3, r4, r5, r6, r7, r8] := by
  obtain ⟨hl, hr, hrow, hcol, hbox⟩ := hv
  have hg : ([x, y, z, r3, r4, r5, r6, r7, r8] : List (List Nat)).Perm
      [r0, r1, r2, r3, r4, r5, r6, r7, r8] := hp.append_right [r3, r4, r5, r6, r7, r8]
  refine ⟨rfl, ?_, ?_, ?_, ?_⟩
  · intro row hrw
    exact hr row (hg.mem_iff.mp hrw)
  · intro row hrw
    exact hrow row (hg.mem_iff.mp hrw)
  · intro c hc
    exact ((hg.map _).trans (hcol c hc) : _)
  · intro bi hbi bj hbj
    have hb : bi = 0 ∨ bi = 1 ∨ bi = 2 := by omega
    rcases hb with rfl | rfl | rfl
    · have hb0 : ((([r0, r1, r2] : List (List Nat)).map fun row =>
          (row.drop (3 * bj)).take 3).flatten).Perm [1, 2, 3, 4, 5, 6, 7, 8, 9] :=
        hbox 0 (by omega) bj hbj
      exact ((hp.map fun row => (row.drop (3 * bj)).take 3).flatten).trans hb0
    · exact hbox 1 (by omega) bj hbj
    · exact hbox 2 (by omega) bj hbj

theorem validGrid_replace3 (x y z r0 r1 r2 r3 r4 r5 r6 r7 r8 : List Nat)
    (hp : ([x, y, z] : List (List Nat)).Perm [r3, r4, r5])
    (hv : validGrid [r0, r1, r2, r3, r4, r5, r6, r7, r8]) :
    validGrid [r0, r1, r2, x, y, z, r6, r7, r8] := by
  obtain ⟨hl, hr, hrow, hcol, hbox⟩ := hv
  have hg : ([r0, r1, r2, x, y, z, r6, r7, r8] : List (List Nat)).Perm
      [r0, r1, r2, r3, r4, r5, r6, r7, r8] :=
    List.Perm.append_left [r0, r1, r2] (hp.append_right [r6, r7, r8])
  refine ⟨rfl, ?_, ?_, ?_, ?_⟩
  · intro row hrw
    exact hr row (hg.mem_iff.mp hrw)
  · intro row hrw
    exact hrow row (hg.mem_iff.mp hrw)
  · intro c hc
    exact ((hg.map _).trans (hcol c hc) : _)
  · intro bi hbi bj hbj
    have hb : bi = 0 ∨ bi = 1 ∨ bi = 2 := by omega
    rcases hb with rfl | rfl | rfl
    · exact hbox 0 (by omega) bj hbj
    · have hb1 : ((([r3, r4, r5] : List (List Nat)).map fun row =>
          (row.drop (3 * bj)).take 3).flatten).Perm [1, 2, 3, 4, 5, 6, 7, 8, 9] :=
        hbox 1 (by omega) bj hbj
      exact ((hp.map fun row => (row.drop (3 * bj)).take 3).flatten).trans hb1
    · exact hbox 2 (by omega) bj hbj

theorem validGrid_replace6 (x y z r0 r1 r2 r3 r4 r5 r6 r7 r8 : List Nat)
    (hp : ([x, y, z] : List (List Nat)).Perm [r6, r7, r8])
    (hv : validGrid [r0, r1, r2, r3, r4, r5, r6, r7, r8]) :
    validGrid [r0, r1, r2, r3, r4, r5, x, y, z] := by
  obtain ⟨hl, hr, hrow, hcol, hbox⟩ := hv
  have hg : ([r0, r1, r2, r3, r4, r5, x, y, z] : List (List Nat)).Perm
      [r0, r1, r2, r3, r4, r5, r6, r7, r8] :=
    List.Perm.append_left [r0, r1, r2, r3, r4, r5] hp
  refine ⟨rfl, ?_, ?_, ?_, ?_⟩
  · intro row hrw
    exact hr row (hg.mem_iff.mp hrw)
  · intro row hrw
    exact hrow row (hg.mem_iff.mp hrw)
  · intro c hc
    exact ((hg.map _).trans (hcol c hc) : _)
  · intro bi hbi bj hbj
    have hb : bi = 0 ∨ bi = 1 ∨ bi = 2 := by omega
    rcases hb with rfl | rfl | rfl
    · exact hbox 0 (by omega) bj hbj
    · exact hbox 1 (by omega) bj hbj
    · have hb2 : ((([r6, r7, r8] : List (List Nat)).map fun row =>
          (row.drop (3 * bj)).take 3).flatten).Perm [1, 2, 3, 4, 5, 6, 7, 8, 9] :=
        hbox 2 (by omega) bj hbj
      exact ((hp.map fun row => (row.drop (3 * bj)).take 3).flatten).trans hb2

theorem validGrid_setBand (b : Nat) (hb : b = 0 ∨ b = 3 ∨ b = 6)
    (g rows' : List (List Nat))
    (hperm : rows'.Perm [g.getD b [], g.getD (b + 1) [], g.getD (b + 2) []])
    (hv : validGrid g) :
    validGrid (((g.set b (rows'.getD 0 [])).set (b + 1) (rows'.getD 1 [])).set (b + 2)
      (rows'.getD 2 [])) := by
  obtain ⟨r0, r1, r2, r3, r4, r5, r6, r7, r8, rfl⟩ := exists_nine g hv.1
  obtain ⟨x, y, z, rfl⟩ := exists_three rows' (by simpa using hperm.length_eq)
  rcases hb with rfl | rfl | rfl
  · exact validGrid_replace0 x y z r0 r1 r2 r3 r4 r5 r6 r7 r8 hperm hv
  · exact validGrid_replace3 x y z r0 r1 r2 r3 r4 r5 r6 r7 r8 hperm hv
  · exact validGrid_replace6 x y z r0 r1 r2 r3 r4 r5 r6 r7 r8 hperm hv

theorem validGrid_bandRowShuffleAt {g : List (List Nat)} (s b : Nat)
    (hb : b = 0 ∨ b = 3 ∨ b = 6) (hv : validGrid g) :
    validGrid (bandRowShuffleAt g s b).1 := by
  simp only [bandRowShuffleAt]
  split
  · exact validGrid_setBand b hb g _ (shuffle_perm _ _) hv
  · exact hv

theorem validGrid_bandRowShuffles {g : List (List Nat)} (s : Nat) (hv : validGrid g) :
    validGrid (bandRowShuffles g s).1 := by
  simp only [bandRowShuffles]
  exact validGrid_bandRowShuffleAt _ 6 (by simp)
    (validGrid_bandRowShuffleAt _ 3 (by simp)
      (validGrid_bandRowShuffleAt _ 0 (by simp) hv))

theorem validGrid_concatBands (g : List (List Nat)) (bs : List (List (List Nat)))
    (hperm : bs.Perm [g.take 3, (g.drop 3).take 3, (g.drop 6).take 3])
    (hv : validGrid g) :
    validGrid (bs.getD 0 [] ++ bs.getD 1 [] ++ bs.getD 2 []) := by
  obtain ⟨r0, r1, r2, r3, r4, r5, r6, r7, r8, rfl⟩ := exists_nine g hv.1
  obtain ⟨X, Y, Z, rfl⟩ := exists_three bs (by simpa using hperm.length_eq)
  obtain ⟨hl, hr, hrow, hcol, hbox⟩ := hv
  have hperm' : ([X, Y, Z] : List (List (List Nat))).Perm
      [[r0, r1, r2], [r3, r4, r5], [r6, r7, r8]] := hperm
  have hg : (X ++ Y ++ Z).Perm [r0, r1, r2, r3, r4, r5, r6, r7, r8] := by
    have h1 : (X ++ Y ++ Z) = ([X, Y, Z] : List (List (List Nat))).flatten := by
      simp [List.flatten]
    rw [h1]
    simpa using hperm'.flatten
  have hX : X ∈ [[r0, r1, r2], [r3, r4, r5], [r6, r7, r8]] := hperm'.mem_iff.mp (by simp)
  have hY : Y ∈ [[r0, r1, r2], [r3, r4, r5], [r6, r7, r8]] := hperm'.mem_iff.mp (by simp)
  have hZ : Z ∈ [[r0, r1, r2], [r3, r4, r5], [r6, r7, r8]] := hperm'.mem_iff.mp (by simp)
  simp only [List.mem_cons, List.not_mem_nil, or_false] at hX hY hZ
  show validGrid (X ++ Y ++ Z)
  refine ⟨by rw [hg.length_eq]; rfl, ?_, ?_, ?_, ?_⟩
  · intro row hrw
    exact hr row (hg.mem_iff.mp hrw)
  · intro row hrw
    exact hrow row (hg.mem_iff.mp hrw)
  · intro c hc
    exact ((hg.map _).trans (hcol c hc) : _)
  · intro bi hbi bj hbj
    have hb : bi = 0 ∨ bi = 1 ∨ bi = 2 := by omega
    rcases hX with rfl | rfl | rfl <;> rcases hY with rfl | rfl | rfl <;>
      rcases hZ with rfl | rfl | rfl <;> rcases hb with rfl | rfl | rfl <;>
      first
        | exact hbox 0 (by omega) bj hbj
        | exact hbox 1 (by omega) bj hbj
        | exact hbox 2 (by omega) bj hbj

theorem validGrid_bandsShuffle {g : List (List Nat)} (s : Nat) (hv : validGrid g) :
    validGrid (bandsShuffle g s).1 := by
  simp only [bandsShuffle]
  exact validGrid_concatBands g _ (shuffle_perm _ _) hv

theorem validGrid_relabel {g : List (List Nat)} (pm : List Nat)
    (hperm : pm.Perm nums) (hv : validGrid g) : validGrid (relabel g pm) := by
  obtain ⟨hl, hr, hrow, hcol, hbox⟩ := hv
  obtain ⟨p1, p2, p3, p4, p5, p6, p7, p8, p9, rfl⟩ :=
    exists_nine pm (by simpa [nums] using hperm.length_eq)
  have hrowmap : ∀ l : List Nat, validRow l →
      validRow (l.map (digitMapGet [p1, p2, p3, p4, p5, p6, p7, p8, p9])) := by
    intro l hlv
    have h1 : (l.map (digitMapGet [p1, p2, p3, p4, p5, p6, p7, p8, p9])).Perm
        (nums.map (digitMapGet [p1, p2, p3, p4, p5, p6, p7, p8, p9])) := hlv.map _
    have h2 : nums.map (digitMapGet [p1, p2, p3, p4, p5, p6, p7, p8, p9]) =
        [p1, p2, p3, p4, p5, p6, p7, p8, p9] := rfl
    rw [h2] at h1
    exact h1.trans hperm
  have hshape : (relabel g [p1, p2, p3, p4, p5, p6, p7, p8, p9]).length = 9 ∧
      ∀ row ∈ relabel g [p1, p2, p3, p4, p5, p6, p7, p8, p9], row.length = 9 := by
    constructor
    · rw [relabel, List.length_map, hl]
    · intro row hrw
      rw [relabel] at hrw
      obtain ⟨orig, ho, rfl⟩ := List.mem_map.mp hrw
      rw [List.length_map]
      exact hr orig ho
  have hcell : ∀ r c, r < 9 → c < 9 →
      cellN (relabel g [p1, p2, p3, p4, p5, p6, p7, p8, p9]) r c =
        digitMapGet [p1, p2, p3, p4, p5, p6, p7, p8, p9] (cellN g r c) := by
    intro r c hrlt hclt
    rw [cellN, relabel, getD_map_of_lt _ g r (by omega) [] []]
    rw [getD_map_of_lt _ _ c (by rw [hr _ (getD_mem g r (by omega) [])]; omega) 0 0, cellN]
  refine ⟨hshape.1, hshape.2, ?_, ?_, ?_⟩
  · intro row hrw
    rw [relabel] at hrw
    obtain ⟨orig, ho, rfl⟩ := List.mem_map.mp hrw
    exact hrowmap orig (hrow orig ho)
  · intro c hc
    have hcoleq : colOf (relabel g [p1, p2, p3, p4, p5, p6, p7, p8, p9]) c =
        (colOf g c).map (digitMapGet [p1, p2, p3, p4, p5, p6, p7, p8, p9]) := by
      rw [relabel, colOf, colOf, List.map_map, List.map_map]
      refine List.map_congr_left ?_
      intro row hrw
      simp only [Function.comp_apply]
      rw [getD_map_of_lt _ row c (by rw [hr row hrw]; omega) 0 0]
    rw [hcoleq]
    exact hrowmap _ (hcol c hc)
  · intro bi hbi bj hbj
    rw [boxOf_explicit _ hshape.1 hshape.2 bi bj hbi hbj,
      hcell _ _ (by omega) (by omega), hcell _ _ (by omega) (by omega),
      hcell _ _ (by omega) (by omega), hcell _ _ (by omega) (by omega),
      hcell _ _ (by omega) (by omega), hcell _ _ (by omega) (by omega),
      hcell _ _ (by omega) (by omega), hcell _ _ (by omega) (by omega),
      hcell _ _ (by omega) (by omega)]
    have hb := hbox bi hbi bj hbj
    rw [boxOf_explicit g hl hr bi bj hbi hbj] at hb
    exact hrowmap _ hb

theorem validGrid_baseGrid : validGrid baseGrid := by
  unfold validGrid validRow
  decide

/-- The full transformation pipeline of `generateBoard` yields a valid
solution grid for every seed. -/
theorem generateSolution_valid (codes : List Nat) :
    validGrid (generateSolution codes).1 := by
  simp only [generateSolution, sudokuTail]
  have h0 : validGrid (if (coinFlip (createSeededRNG codes)).1 then transposeG baseGrid
      else baseGrid) := by
    split
    · exact validGrid_transposeG validGrid_baseGrid
    · exact validGrid_baseGrid
  exact validGrid_relabel _ (shuffle_perm nums _)
    (validGrid_bandsShuffle _
      (validGrid_transposeG
        (validGrid_bandRowShuffles _
          (validGrid_transposeG (validGrid_bandRowShuffles _ h0)))))

/-- C1: for every seed string and every difficulty, the 9×9 solution grid
produced by the Sudoku generator contains each digit 1–9 exactly once in
every row, every column and every 3×3 box. -/
theorem sudoku_solution_valid (codes : List Nat) (difficulty : String) :
    validGrid (generateBoard codes difficulty).1 :=
  generateSolution_valid codes

/-! ### Gating of the transformations (claim C7) -/

/-- Counterexample to C7: at seed `"2024-1-1"` the solution produced by the
source differs from the one produced by the generator the claim describes
(with the band shuffle and the digit relabeling also gated by `rng() > 0.5`):
the source applies those two transformations unconditionally. -/
theorem generateSolution_ne_claimed :
    (generateSolution [50, 48, 50, 52, 45, 49, 45, 49]).1 ≠
      (generateSolutionClaimed [50, 48, 50, 52, 45, 49, 45, 49]).1 := by
  decide

/-- A coin-gated (`rng() > 0.5`) state-threading grid transformation. -/
def gatedT (f : List (List Nat) → Nat → List (List Nat) × Nat)
    (g : List (List Nat)) (s : Nat) : List (List Nat) × Nat :=
  let c := coinFlip s
  if c.1 then f g c.2 else (g, c.2)

/-- Rows `b`, `b+1`, `b+2` shuffled unconditionally. -/
def bandRowsRaw (b : Nat) (g : List (List Nat)) (s : Nat) : List (List Nat) × Nat :=
  let q := shuffle [g.getD b [], g.getD (b + 1) [], g.getD (b + 2) []] s
  (((g.set b (q.1.getD 0 [])).set (b + 1) (q.1.getD 1 [])).set (b + 2) (q.1.getD 2 []), q.2)

/-- The three coin-gated row-band shuffles of the amended claim. -/
def gatedBandPass (g : List (List Nat)) (s : Nat) : List (List Nat) × Nat :=
  let q0 := gatedT (bandRowsRaw 0) g s
  let q3 := gatedT (bandRowsRaw 3) q0.1 q0.2
  gatedT (bandRowsRaw 6) q3.1 q3.2

/-- Transformations (b)–(e) of the amended claim C7: coin-gated row-band
shuffles, transpose, coin-gated column-band shuffles, transpose back, then
the unconditional band shuffle and the unconditional digit relabeling. -/
def amendedTail (p : List (List Nat) × Nat) : List (List Nat) × Nat :=
  let q2 := gatedBandPass p.1 p.2
  let q3 := gatedBandPass (transposeG q2.1) q2.2
  let q4 := bandsShuffle (transposeG q3.1) q3.2
  let q5 := shuffle nums q4.2
  (relabel q4.1 q5.1, q5.2)

/-- The amended claim C7's generator: transformation (a) (the transpose) and
the band shuffles (b)/(c) are each gated by `rng() > 0.5`; the band shuffle
(d) and the digit relabeling (e) are applied unconditionally. -/
def generateSolutionAmended (codes : List Nat) : List (List Nat) × Nat :=
  amendedTail (gatedT (fun g s => (transposeG g, s)) baseGrid (createSeededRNG codes))

theorem gatedT_transpose_eq (s : Nat) :
    gatedT (fun g s => (transposeG g, s)) baseGrid s =
      ((if (coinFlip s).1 then transposeG baseGrid else baseGrid), (coinFlip s).2) := by
  unfold gatedT
  by_cases h : (coinFlip s).1 = true <;> simp [h]

/-- C7 (amended): the source generator agrees with the pipeline in which
only transformations (a), (b) and (c) are coin-gated and (d), (e) are
unconditional. -/
theorem sudokuTail_eq_amendedTail (g : List (List Nat)) (s : Nat) :
    sudokuTail g s = amendedTail (g, s) := rfl

theorem generateSolution_eq_amended (codes : List Nat) :
    generateSolution codes = generateSolutionAmended codes := by
  show sudokuTail (if (coinFlip (createSeededRNG codes)).1 then transposeG baseGrid
      else baseGrid) (coinFlip (createSeededRNG codes)).2 =
    amendedTail (gatedT (fun g s => (transposeG g, s)) baseGrid (createSeededRNG codes))
  rw [gatedT_transpose_eq]
  exact sudokuTail_eq_amendedTail _ _

/-! ### Puzzle masking (claims C5 and C6) -/

/-- Cell `(r, c)` of a puzzle grid (`none` = masked). -/
def cellO (p : List (List (Option Nat))) (r c : Nat) : Option Nat :=
  (p.getD r []).getD c none

/-- Number of revealed (non-`null`) cells of a puzzle grid. -/
def countFilled (p : List (List (Option Nat))) : Nat :=
  (p.map fun row => (row.filter fun c => c.isSome).length).sum

theorem mapIdxFrom_getElem? {α β : Type} (f : Nat → α → β) :
    ∀ (l : List α) (i k : Nat), (mapIdxFrom f i l)[k]? = (l[k]?).map (f (i + k))
  | [], i, k => by simp [mapIdxFrom]
  | a :: t, i, 0 => by simp [mapIdxFrom]
  | a :: t, i, k + 1 => by
    simp only [mapIdxFrom, List.getElem?_cons_succ]
    rw [mapIdxFrom_getElem? f t (i + 1) k]
    have h : i + 1 + k = i + (k + 1) := by omega
    rw [h]

theorem filter_isSome_mapIdxFrom (kept : List Nat) (base : Nat) :
    ∀ (row : List Nat) (i : Nat),
      ((mapIdxFrom (fun c v => if base + c ∈ kept then some v else none) i row).filter
          fun c => c.isSome).length =
        ((List.range' (base + i) row.length).filter fun idx => decide (idx ∈ kept)).length := by
  intro row
  induction row with
  | nil => intro i; simp [mapIdxFrom]
  | cons v t ih =>
    intro i
    rw [List.length_cons, List.range'_succ]
    by_cases hm : base + i ∈ kept <;>
      simp only [mapIdxFrom, List.filter_cons, hm, decide_eq_true_eq,
        Option.isSome_some, Option.isSome_none, if_true, if_false,
        List.length_cons, not_false_iff] <;>
      rw [show base + i + 1 = base + (i + 1) by omega] <;>
      simp [ih (i + 1)]

theorem countFilled_cons (row : List (Option Nat)) (rest : List (List (Option Nat))) :
    countFilled (row :: rest) = (row.filter fun c => c.isSome).length + countFilled rest := by
  simp [countFilled]

theorem countFilled_mapIdxFrom (kept : List Nat) :
    ∀ (rows : List (List Nat)) (r : Nat), (∀ row ∈ rows, row.length = 9) →
      countFilled (mapIdxFrom
          (fun r row => mapIdxFrom (fun c v => if r * 9 + c ∈ kept then some v else none) 0 row)
          r rows) =
        ((List.range' (r * 9) (rows.length * 9)).filter fun idx => decide (idx ∈ kept)).length := by
  intro rows
  induction rows with
  | nil => intro r _; simp [mapIdxFrom, countFilled]
  | cons row rest ih =>
    intro r hr
    have hrow : row.length = 9 := hr row (by simp)
    rw [mapIdxFrom, countFilled_cons, filter_isSome_mapIdxFrom kept (r * 9) row 0,
      ih (r + 1) (fun rw hm => hr rw (by simp [hm]))]
    have hsplit : List.range' (r * 9 + 0) row.length ++
        List.range' ((r + 1) * 9) (rest.length * 9) =
        List.range' (r * 9) ((row :: rest).length * 9) := by
      rw [hrow, List.length_cons, show r * 9 + 0 = r * 9 by ring,
        show (r + 1) * 9 = r * 9 + 9 by ring, List.range'_append_1]
      congr 1
      ring
    rw [← hsplit, List.filter_append, List.length_append]

theorem length_filter_mem_range (kept : List Nat) (hnd : kept.Nodup)
    (hsub : ∀ x ∈ kept, x < 81) :
    ((List.range 81).filter fun idx => decide (idx ∈ kept)).length = kept.length := by
  have hperm : ((List.range 81).filter fun idx => decide (idx ∈ kept)).Perm kept := by
    rw [List.perm_ext_iff_of_nodup (List.Nodup.filter _ (List.nodup_range 81)) hnd]
    intro a
    simp only [List.mem_filter, List.mem_range, decide_eq_true_eq]
    exact ⟨fun h => h.2, fun h => ⟨hsub a h, h⟩⟩
  exact hperm.length_eq

theorem revealCount_le (difficulty : String) : revealCount difficulty ≤ 81 := by
  unfold revealCount
  split
  · norm_num
  · split <;> norm_num

/-- The number of revealed cells of the generated puzzle always equals the
configured reveal count. -/
theorem countFilled_generateBoard (codes : List Nat) (difficulty : String) :
    countFilled (generateBoard codes difficulty).2 = revealCount difficulty := by
  have hvalid := generateSolution_valid codes
  simp only [generateBoard]
  have hperm := shuffle_perm (List.range 81) (generateSolution codes).2
  have hnd0 : ((shuffle (List.range 81) (generateSolution codes).2).1).Nodup :=
    hperm.nodup_iff.mpr (List.nodup_range 81)
  have hnd : (((shuffle (List.range 81) (generateSolution codes).2).1).take
      (revealCount difficulty)).Nodup :=
    List.Sublist.nodup (List.take_sublist _ _) hnd0
  have hsub : ∀ x ∈ ((shuffle (List.range 81) (generateSolution codes).2).1).take
      (revealCount difficulty), x < 81 := by
    intro x hx
    exact List.mem_range.mp (hperm.mem_iff.mp (List.mem_of_mem_take hx))
  have hlen : (((shuffle (List.range 81) (generateSolution codes).2).1).take
      (revealCount difficulty)).length = revealCount difficulty := by
    rw [List.length_take, shuffle_length, List.length_range]
    exact min_eq_left (revealCount_le difficulty)
  calc countFilled (genPuzzle
        (((shuffle (List.range 81) (generateSolution codes).2).1).take (revealCount difficulty))
        (generateSolution codes).1)
      = ((List.range' 0 ((generateSolution codes).1.length * 9)).filter fun idx =>
          decide (idx ∈ ((shuffle (List.range 81) (generateSolution codes).2).1).take
            (revealCount difficulty))).length := by
        rw [genPuzzle]
        exact countFilled_mapIdxFrom _ _ 0 hvalid.2.1
    _ = revealCount difficulty := by
        rw [hvalid.1, show (9 : Nat) * 9 = 81 from rfl, ← List.range_eq_range',
          length_filter_mem_range _ hnd hsub, hlen]

theorem cellO_genPuzzle (kept : List Nat) (sol : List (List Nat)) (r c v : Nat)
    (h : cellO (genPuzzle kept sol) r c = some v) : cellN sol r c = v := by
  rw [cellO] at h
  cases hsol : sol[r]? with
  | none =>
    have hnone : (genPuzzle kept sol).getD r [] = [] := by
      rw [List.getD_eq_getElem?_getD, genPuzzle, mapIdxFrom_getElem?, hsol]
      rfl
    rw [hnone] at h
    simp at h
  | some row =>
    have hrowq : (genPuzzle kept sol).getD r [] =
        mapIdxFrom (fun c v => if r * 9 + c ∈ kept then some v else none) 0 row := by
      rw [List.getD_eq_getElem?_getD, genPuzzle, mapIdxFrom_getElem?, hsol]
      simp
    rw [hrowq] at h
    cases hrow : row[c]? with
    | none =>
      rw [List.getD_eq_getElem?_getD, mapIdxFrom_getElem?, hrow] at h
      simp at h
    | some val =>
      rw [List.getD_eq_getElem?_getD, mapIdxFrom_getElem?, hrow] at h
      have h' : (if r * 9 + c ∈ kept then some val else none) = some v := by
        simpa using h
      have hval : val = v := by
        by_cases hm : r * 9 + c ∈ kept
        · rw [if_pos hm] at h'
          exact Option.some_inj.mp h'
        · rw [if_neg hm] at h'
          simp at h'
      rw [cellN, List.getD_eq_getElem?_getD sol r, hsol, Option.getD_some,
        List.getD_eq_getElem?_getD row c, hrow, Option.getD_some, hval]

/-- C5: for every seed and difficulty, the puzzle grid is a subset reveal of
the solution grid — every non-`null` puzzle cell equals the corresponding
solution cell — and the number of non-`null` cells equals the reveal count
configured for the difficulty (Easy = 45, Medium = 35, Hard = 24). -/
theorem sudoku_puzzle_subset_count (codes : List Nat) (difficulty : String) :
    (∀ r c v, cellO (generateBoard codes difficulty).2 r c = some v →
      cellN (generateBoard codes difficulty).1 r c = v) ∧
    countFilled (generateBoard codes difficulty).2 = revealCount difficulty ∧
    revealCount "Easy" = 45 ∧ revealCount "Medium" = 35 ∧ revealCount "Hard" = 24 := by
  refine ⟨?_, countFilled_generateBoard codes difficulty, rfl, rfl, rfl⟩
  intro r c v h
  exact cellO_genPuzzle _ _ r c v h

set_option maxRecDepth 100000 in
/-- Witness for C5 at seed `"2024-1-1"`, difficulty `Medium`: puzzle cell
`(0, 1)` is revealed as `7`, and indeed solution cell `(0, 1)` is `7`. -/
theorem sudoku_puzzle_subset_count_witness :
    cellN (generateBoard [50, 48, 50, 52, 45, 49, 45, 49] "Medium").1 0 1 = 7 :=
  (sudoku_puzzle_subset_count [50, 48, 50, 52, 45, 49, 45, 49] "Medium").1 0 1 7 (by decide)

/-- Counterexample to C6: for the unrecognized difficulty `"Expert"` the
generator reveals 24 cells (the `Hard` count), not `Medium`'s 35. -/
theorem generateBoard_unrecognized_ne_medium :
    countFilled (generateBoard [50, 48, 50, 52, 45, 49, 45, 49] "Expert").2 ≠ 35 := by
  rw [countFilled_generateBoard]
  decide

/-- C6 (amended): for every difficulty value other than `Easy` and `Medium`
— in particular for every unrecognized value — the generator reveals 24
cells, the `Hard` count (the ternary's final branch). -/
theorem generateBoard_unrecognized_count (codes : List Nat) (difficulty : String)
    (h1 : difficulty ≠ "Easy") (h2 : difficulty ≠ "Medium") :
    countFilled (generateBoard codes difficulty).2 = 24 := by
  rw [countFilled_generateBoard, revealCount, if_neg h1, if_neg h2]

/-- Witness for the amended C6 at the unrecognized difficulty `"Expert"`. -/
theorem generateBoard_unrecognized_count_witness :
    countFilled (generateBoard [50, 48, 50, 52, 45, 49, 45, 49] "Expert").2 = 24 :=
  generateBoard_unrecognized_count [50, 48, 50, 52, 45, 49, 45, 49] "Expert"
    (by decide) (by decide)

/-! ## Crossword layout engine (`generateGridLayout`, `canPlaceWord` and
`placeWord`, src/services/geminiService.ts lines 110-231) -/

inductive Dir : Type
  | across
  | down
  deriving DecidableEq, Repr

structure WordEntry : Type where
  answer : List Char
  clue : String
  deriving DecidableEq, Repr

structure PlacedWord : Type where
  answer : List Char
  clue : String
  row : Int
  col : Int
  direction : Dir
  deriving DecidableEq, Repr

/-- JS read `grid[r][c]`: `none` = out of range (JS `undefined`),
`some none` = `null` (an empty cell), `some (some ch)` = a letter. -/
def readCell (g : List (List (Option Char))) (r c : Int) : Option (Option Char) :=
  if 0 ≤ r ∧ 0 ≤ c then (g[r.toNat]?).bind fun row => row[c.toNat]? else none

/-- The per-letter loop of `canPlaceWord` for an `across` candidate: conflict
check, then (for a cell that is `null`) the vertical-neighbor checks. -/
def canPlaceAcross (g : List (List (Option Char))) (row col height : Int) :
    List Char → Int → Bool
  | [], _ => true
  | ch :: rest, i =>
    let cell := readCell g row (col + i)
    if cell ≠ some none ∧ cell ≠ some (some ch) then false
    else if cell = some none ∧
        ((row > 0 ∧ readCell g (row - 1) (col + i) ≠ some none) ∨
         (row < height - 1 ∧ readCell g (row + 1) (col + i) ≠ some none)) then false
    else canPlaceAcross g row col height rest (i + 1)

/-- The per-letter loop of `canPlaceWord` for a `down` candidate. -/
def canPlaceDown (g : List (List (Option Char))) (row col width : Int) :
    List Char → Int → Bool
  | [], _ => true
  | ch :: rest, i =>
    let cell := readCell g (row + i) col
    if cell ≠ some none ∧ cell ≠ some (some ch) then false
    else if cell = some none ∧
        ((col > 0 ∧ readCell g (row + i) (col - 1) ≠ some none) ∨
         (col < width - 1 ∧ readCell g (row + i) (col + 1) ≠ some none)) then false
    else canPlaceDown g row col width rest (i + 1)

/-- `canPlaceWord(grid, word, row, col, direction)`. -/
def canPlaceWord (g : List (List (Option Char))) (word : List Char) (row col : Int)
    (direction : Dir) : Bool :=
  let height : Int := g.length
  let width : Int := (g.headD []).length
  let len : Int := word.length
  match direction with
  | Dir.across =>
    if col + len > width then false
    else if col > 0 ∧ readCell g row (col - 1) ≠ some none then false
    else if col + len < width ∧ readCell g row (col + len) ≠ some none then false
    else canPlaceAcross g row col height word 0
  | Dir.down =>
    if row + len > height then false
    else if row > 0 ∧ readCell g (row - 1) col ≠ some none then false
    else if row + len < height ∧ readCell g (row + len) col ≠ some none then false
    else canPlaceDown g row col width word 0

/-- JS write `grid[r][c] = ch`.  Writes at negative indices create invisible
properties and writes at `c ≥ width` extend the row beyond the cells the
layout code ever reads again, so dropping out-of-range writes is
observationally faithful. -/
def writeCell (g : List (List (Option Char))) (r c : Int) (ch : Char) :
    List (List (Option Char)) :=
  if 0 ≤ r ∧ 0 ≤ c then g.set r.toNat ((g.getD r.toNat []).set c.toNat (some ch)) else g

/-- The loop of `placeWord`. -/
def placeWordAux (row col : Int) (direction : Dir) :
    List (List (Option Char)) → List Char → Int → List (List (Option Char))
  | g, [], _ => g
  | g, ch :: rest, i =>
    let g' := match direction with
      | Dir.across => writeCell g row (col + i) ch
      | Dir.down => writeCell g (row + i) col ch
    placeWordAux row col direction g' rest (i + 1)

/-- `placeWord(grid, word, row, col, direction)`. -/
def placeWord (g : List (List (Option Char))) (word : List Char) (row col : Int)
    (direction : Dir) : List (List (Option Char)) :=
  placeWordAux row col direction g word 0

/-- The mutable state of `generateGridLayout`: the grid and the
`placedWords` array. -/
structure LayoutState : Type where
  grid : List (List (Option Char))
  placedWords : List PlacedWord
  deriving Repr

/-- The innermost loop (`for k`) of `generateGridLayout`: scan the placed
word's letters for matches with the candidate's letter `ch` at position `j`;
a successful `canPlaceWord` commits the placement and sets `placed`, but the
`k` scan continues (the source has no break here). -/
def tryKLoop (size : Nat) (w : WordEntry) (j : Nat) (ch : Char) (pw : PlacedWord) :
    List Char → Nat → LayoutState → Bool → LayoutState × Bool
  | [], _, st, placed => (st, placed)
  | c :: rest, k, st, placed =>
    if c = ch then
      match pw.direction with
      | Dir.across =>
        let startRow : Int := pw.row - j
        let startCol : Int := pw.col + k
        if startRow ≥ 0 ∧ startRow + w.answer.length ≤ size then
          if canPlaceWord st.grid w.answer startRow startCol Dir.down then
            tryKLoop size w j ch pw rest (k + 1)
              ⟨placeWord st.grid w.answer startRow startCol Dir.down,
               st.placedWords ++ [⟨w.answer, w.clue, startRow, startCol, Dir.down⟩]⟩ true
          else tryKLoop size w j ch pw rest (k + 1) st placed
        else tryKLoop size w j ch pw rest (k + 1) st placed
      | Dir.down =>
        let startRow : Int := pw.row + k
        let startCol : Int := pw.col - j
        if startCol ≥ 0 ∧ startCol + w.answer.length ≤ size then
          if canPlaceWord st.grid w.answer startRow startCol Dir.across then
            tryKLoop size w j ch pw rest (k + 1)
              ⟨placeWord st.grid w.answer startRow startCol Dir.across,
               st.placedWords ++ [⟨w.answer, w.clue, startRow, startCol, Dir.across⟩]⟩ true
          else tryKLoop size w j ch pw rest (k + 1) st placed
        else tryKLoop size w j ch pw rest (k + 1) st placed
    else tryKLoop size w j ch pw rest (k + 1) st placed

/-- The `for j` loop over the candidate's letters; `if (placed) break`. -/
def tryJLoop (size : Nat) (w : WordEntry) (pw : PlacedWord) :
    List Char → Nat → LayoutState → Bool → LayoutState × Bool
  | [], _, st, placed => (st, placed)
  | ch :: rest, j, st, placed =>
    if placed then (st, placed)
    else
      let r := tryKLoop size w j ch pw pw.answer 0 st placed
      tryJLoop size w pw rest (j + 1) r.1 r.2

/-- The `for placedWord of placedWords` loop; `if (placed) break`. -/
def tryPlacedLoop (size : Nat) (w : WordEntry) :
    List PlacedWord → LayoutState → Bool → LayoutState × Bool
  | [], st, placed => (st, placed)
  | pw :: rest, st, placed =>
    if placed then (st, placed)
    else
      let r := tryJLoop size w pw w.answer 0 st placed
      tryPlacedLoop size w rest r.1 r.2

/-- One pass over `remaining`: words whose answer is already placed are
skipped, the others search the current `placedWords` for an intersection. -/
def passLoop (size : Nat) : List WordEntry → LayoutState → LayoutState
  | [], st => st
  | w :: rest, st =>
    if st.placedWords.any fun p => p.answer = w.answer then passLoop size rest st
    else passLoop size rest (tryPlacedLoop size w st.placedWords st false).1

/-- `generateGridLayout(wordsData, size = 12)`: stable sort by descending
answer length, place the first word across and centered, then two passes of
intersection-driven placement. -/
def generateGridLayout (wordsData : List WordEntry) (size : Nat) : List PlacedWord :=
  let grid : List (List (Option Char)) := List.replicate size (List.replicate size none)
  let sortedWords := wordsData.mergeSort fun a b => b.answer.length ≤ a.answer.length
  match sortedWords with
  | [] => []
  | first :: remaining =>
    let startRow : Int := (size : Int) / 2
    let startCol : Int := Int.fdiv ((size : Int) - first.answer.length) 2
    let st0 : LayoutState :=
      ⟨placeWord grid first.answer startRow startCol Dir.across,
       [⟨first.answer, first.clue, startRow, startCol, Dir.across⟩]⟩
    let st1 := passLoop size remaining st0
    (passLoop size remaining st1).placedWords

/-! ### The `placedWords` array only grows by appending -/

theorem tryKLoop_placed_extend (size : Nat) (w : WordEntry) (j : Nat) (ch : Char)
    (pw : PlacedWord) :
    ∀ (chars : List Char) (k : Nat) (st : LayoutState) (placed : Bool),
      ∃ suffix, ((tryKLoop size w j ch pw chars k st placed).1).placedWords =
        st.placedWords ++ suffix := by
  intro chars
  induction chars with
  | nil =>
    intro k st placed
    exact ⟨[], by simp [tryKLoop]⟩
  | cons c rest ih =>
    intro k st placed
    have key : ∀ (st' : LayoutState) (pl : Bool) (pre : List PlacedWord),
        st'.placedWords = st.placedWords ++ pre →
        ∃ suffix, ((tryKLoop size w j ch pw rest (k + 1) st' pl).1).placedWords =
          st.placedWords ++ suffix := by
      intro st' pl pre hpre
      obtain ⟨suf, hsuf⟩ := ih (k + 1) st' pl
      exact ⟨pre ++ suf, by rw [hsuf, hpre, List.append_assoc]⟩
    simp only [tryKLoop]
    split
    · split
      · split
        · split
          · exact key _ _ [⟨w.answer, w.clue, _, _, Dir.down⟩] rfl
          · exact key _ _ [] (by simp)
        · exact key _ _ [] (by simp)
      · split
        · split
          · exact key _ _ [⟨w.answer, w.clue, _, _, Dir.across⟩] rfl
          · exact key _ _ [] (by simp)
        · exact key _ _ [] (by simp)
    · exact key _ _ [] (by simp)

theorem tryJLoop_placed_extend (size : Nat) (w : WordEntry) (pw : PlacedWord) :
    ∀ (chars : List Char) (j : Nat) (st : LayoutState) (placed : Bool),
      ∃ suffix, ((tryJLoop size w pw chars j st placed).1).placedWords =
        st.placedWords ++ suffix := by
  intro chars
  induction chars with
  | nil =>
    intro j st placed
    exact ⟨[], by simp [tryJLoop]⟩
  | cons ch rest ih =>
    intro j st placed
    simp only [tryJLoop]
    split
    · exact ⟨[], by simp⟩
    · obtain ⟨s1, hs1⟩ := tryKLoop_placed_extend size w j ch pw pw.answer 0 st placed
      obtain ⟨s2, hs2⟩ := ih (j + 1) (tryKLoop size w j ch pw pw.answer 0 st placed).1
        (tryKLoop size w j ch pw pw.answer 0 st placed).2
      exact ⟨s1 ++ s2, by rw [hs2, hs1, List.append_assoc]⟩

theorem tryPlacedLoop_placed_extend (size : Nat) (w : WordEntry) :
    ∀ (pws : List PlacedWord) (st : LayoutState) (placed : Bool),
      ∃ suffix, ((tryPlacedLoop size w pws st placed).1).placedWords =
        st.placedWords ++ suffix := by
  intro pws
  induction pws with
  | nil =>
    intro st placed
    exact ⟨[], by simp [tryPlacedLoop]⟩
  | cons pw rest ih =>
    intro st placed
    simp only [tryPlacedLoop]
    split
    · exact ⟨[], by simp⟩
    · obtain ⟨s1, hs1⟩ := tryJLoop_placed_extend size w pw w.answer 0 st placed
      obtain ⟨s2, hs2⟩ := ih (tryJLoop size w pw w.answer 0 st placed).1
        (tryJLoop size w pw w.answer 0 st placed).2
      exact ⟨s1 ++ s2, by rw [hs2, hs1, List.append_assoc]⟩

theorem passLoop_placed_extend (size : Nat) :
    ∀ (ws : List WordEntry) (st : LayoutState),
      ∃ suffix, (passLoop size ws st).placedWords = st.placedWords ++ suffix := by
  intro ws
  induction ws with
  | nil =>
    intro st
    exact ⟨[], by simp [passLoop]⟩
  | cons w rest ih =>
    intro st
    simp only [passLoop]
    split
    · exact ih st
    · obtain ⟨s1, hs1⟩ := tryPlacedLoop_placed_extend size w st.placedWords st false
      obtain ⟨s2, hs2⟩ := ih (tryPlacedLoop size w st.placedWords st false).1
      exact ⟨s1 ++ s2, by rw [hs2, hs1, List.append_assoc]⟩

/-- C9: for every non-empty input word list, the first word placed is the
head of the stable length-descending sort — a longest answer — placed
`across` at `row = ⌊size / 2⌋`, `col = ⌊(size - length) / 2⌋`, and it appears
first in the output with those coordinates. -/
theorem crossword_first_word (wordsData : List WordEntry) (size : Nat)
    (h : wordsData ≠ []) :
    ∃ first remaining rest,
      wordsData.mergeSort (fun a b => b.answer.length ≤ a.answer.length) =
        first :: remaining ∧
      (∀ w ∈ wordsData, w.answer.length ≤ first.answer.length) ∧
      generateGridLayout wordsData size =
        ⟨first.answer, first.clue, (size : Int) / 2,
          Int.fdiv ((size : Int) - first.answer.length) 2, Dir.across⟩ :: rest := by
  have hperm := List.mergeSort_perm wordsData
    (fun a b => decide (b.answer.length ≤ a.answer.length))
  have hne : wordsData.mergeSort (fun a b => b.answer.length ≤ a.answer.length) ≠ [] := by
    intro hnil
    exact h (List.eq_nil_of_length_eq_zero (by rw [← hperm.length_eq, hnil]; rfl))
  obtain ⟨first, remaining, hsorted⟩ :=
    List.exists_cons_of_ne_nil hne
  have hsortedP : (first :: remaining).Pairwise
      (fun a b => (decide (b.answer.length ≤ a.answer.length)) = true) := by
    rw [← hsorted]
    exact List.sorted_mergeSort
      (fun a b c hab hbc => by
        simp only [decide_eq_true_eq] at hab hbc ⊢
        omega)
      (fun a b => by
        simp only [Bool.or_eq_true, decide_eq_true_eq]
        omega)
      wordsData
  have hlongest : ∀ w ∈ wordsData, w.answer.length ≤ first.answer.length := by
    intro w hw
    have hmem : w ∈ first :: remaining := by
      rw [← hsorted]
      exact (hperm.mem_iff).mpr hw
    rcases List.mem_cons.mp hmem with rfl | hmem'
    · exact le_refl _
    · have := (List.pairwise_cons.mp hsortedP).1 w hmem'
      simpa using this
  refine ⟨first, remaining, ?_⟩
  have hunfold : generateGridLayout wordsData size =
      (passLoop size remaining (passLoop size remaining
        ⟨placeWord (List.replicate size (List.replicate size none)) first.answer
          ((size : Int) / 2) (Int.fdiv ((size : Int) - first.answer.length) 2) Dir.across,
         [⟨first.answer, first.clue, (size : Int) / 2,
           Int.fdiv ((size : Int) - first.answer.length) 2, Dir.across⟩]⟩)).placedWords := by
    rw [generateGridLayout, hsorted]
  obtain ⟨suffix, hsuffix⟩ := passLoop_placed_extend size remaining
    (passLoop size remaining
      ⟨placeWord (List.replicate size (List.replicate size none)) first.answer
        ((size : Int) / 2) (Int.fdiv ((size : Int) - first.answer.length) 2) Dir.across,
       [⟨first.answer, first.clue, (size : Int) / 2,
         Int.fdiv ((size : Int) - first.answer.length) 2, Dir.across⟩]⟩)
  obtain ⟨suffix0, hsuffix0⟩ := passLoop_placed_extend size remaining
    ⟨placeWord (List.replicate size (List.replicate size none)) first.answer
      ((size : Int) / 2) (Int.fdiv ((size : Int) - first.answer.length) 2) Dir.across,
     [⟨first.answer, first.clue, (size : Int) / 2,
       Int.fdiv ((size : Int) - first.answer.length) 2, Dir.across⟩]⟩
  refine ⟨suffix0 ++ suffix, hsorted, hlongest, ?_⟩
  rw [hunfold, hsuffix, hsuffix0]
  simp

/-- Witness for C9 on the word list `[LOGIC, GRID]` with grid size 12. -/
theorem crossword_first_word_witness :
    ∃ first remaining rest,
      ([⟨"LOGIC".data, "c1"⟩, ⟨"GRID".data, "c2"⟩] : List WordEntry).mergeSort
          (fun a b => b.answer.length ≤ a.answer.length) = first :: remaining ∧
      (∀ w ∈ ([⟨"LOGIC".data, "c1"⟩, ⟨"GRID".data, "c2"⟩] : List WordEntry),
        w.answer.length ≤ first.answer.length) ∧
      generateGridLayout [⟨"LOGIC".data, "c1"⟩, ⟨"GRID".data, "c2"⟩] 12 =
        ⟨first.answer, first.clue, ((12 : Nat) : Int) / 2,
          Int.fdiv (((12 : Nat) : Int) - first.answer.length) 2, Dir.across⟩ :: rest :=
  crossword_first_word [⟨"LOGIC".data, "c1"⟩, ⟨"GRID".data, "c2"⟩] 12 (by decide)

/-! ### Break behavior after a successful placement (claim C8) -/

unseal List.merge List.mergeSort in
set_option maxRecDepth 100000 in
/-- Counterexample to C8: on input `[ABA, AD]` with grid size 12, the word
`AD` is committed twice (down at `(6,4)` and down at `(6,6)`) — after the
successful placement at `k = 0` the inner `k` scan keeps trying further
shared-letter positions of the same placed word, and the second try also
passes `canPlaceWord`. -/
theorem crossword_word_placed_twice :
    ((generateGridLayout [⟨"ABA".data, ""⟩, ⟨"AD".data, ""⟩] 12).filter
      fun p => p.answer = "AD".data).length = 2 := by
  decide

/-- C8 (amended): once a candidate word has been successfully placed
(`placed = true`), the letter loop (`j`) and the placed-word loop stop at
their next iteration check, and a word whose answer is already among the
placed words is skipped by the pass loop; however, the innermost `k` scan
has no such check and continues after a successful placement, so the word
can be committed again (see the counterexample). -/
theorem crossword_placement_stops (size : Nat) (w : WordEntry) (pw : PlacedWord) :
    (∀ (chars : List Char) (j : Nat) (st : LayoutState),
      tryJLoop size w pw chars j st true = (st, true)) ∧
    (∀ (pws : List PlacedWord) (st : LayoutState),
      tryPlacedLoop size w pws st true = (st, true)) ∧
    (∀ (rest : List WordEntry) (st : LayoutState),
      (st.placedWords.any fun p => p.answer = w.answer) = true →
      passLoop size (w :: rest) st = passLoop size rest st) := by
  refine ⟨?_, ?_, ?_⟩
  · intro chars j st
    cases chars <;> simp [tryJLoop]
  · intro pws st
    cases pws <;> simp [tryPlacedLoop]
  · intro rest st h
    simp [passLoop, h]

/-- Witness for the amended C8: a word already in `placedWords` is skipped. -/
theorem crossword_placement_stops_witness :
    passLoop 12 [⟨"AD".data, ""⟩] ⟨[], [⟨"AD".data, "", 0, 0, Dir.across⟩]⟩ =
      passLoop 12 [] ⟨[], [⟨"AD".data, "", 0, 0, Dir.across⟩]⟩ :=
  (crossword_placement_stops 12 ⟨"AD".data, ""⟩ ⟨"AD".data, "", 0, 0, Dir.across⟩).2.2
    [] ⟨[], [⟨"AD".data, "", 0, 0, Dir.across⟩]⟩ (by decide)

/-! ### Cells of placed words, and the effect of `writeCell` / `placeWord`
on `readCell` (claims C4 and C10) -/

/-- The grid position at offset `i` along a word starting at `(r, c)` in
direction `dir`. -/
def wpos (r c : Int) (dir : Dir) (i : Int) : Int × Int :=
  match dir with
  | Dir.across => (r, c + i)
  | Dir.down => (r + i, c)

/-- The grid cell holding the `i`-th letter of a placed word. -/
def cellPos (p : PlacedWord) (i : Nat) : Int × Int :=
  wpos p.row p.col p.direction i

theorem wpos_inj (r c : Int) (dir : Dir) {i j : Int}
    (h : wpos r c dir i = wpos r c dir j) : i = j := by
  cases dir <;> simp only [wpos, Prod.mk.injEq] at h <;> omega

theorem readCell_writeCell_ne (g : List (List (Option Char))) (r c r' c' : Int)
    (ch : Char) (hne : (r', c') ≠ (r, c)) :
    readCell (writeCell g r c ch) r' c' = readCell g r' c' := by
  unfold writeCell
  by_cases hrc : 0 ≤ r ∧ 0 ≤ c
  · rw [if_pos hrc]
    unfold readCell
    by_cases hrc' : 0 ≤ r' ∧ 0 ≤ c'
    · rw [if_pos hrc', if_pos hrc']
      obtain ⟨hr0, hc0⟩ := hrc
      obtain ⟨hr0', hc0'⟩ := hrc'
      rw [List.getElem?_set]
      by_cases hr : r.toNat = r'.toNat
      · have hrr : r = r' := by omega
        have hcc : c ≠ c' := fun hcc => hne (by rw [hrr, hcc])
        have hct : c.toNat ≠ c'.toNat := by omega
        rw [if_pos hr]
        by_cases hlen : r.toNat < g.length
        · rw [if_pos hlen]
          have hg : g[r'.toNat]? = some (g.getD r.toNat []) := by
            rw [← hr, List.getElem?_eq_getElem hlen, getD_eq_getElem g r.toNat hlen]
          rw [hg]
          simp only [Option.some_bind]
          rw [List.getElem?_set_ne hct]
        · rw [if_neg hlen]
          have hnone : g[r'.toNat]? = none := by
            rw [List.getElem?_eq_none]
            omega
          rw [hnone]
      · rw [if_neg hr]
    · rw [if_neg hrc', if_neg hrc']
  · rw [if_neg hrc]

theorem readCell_writeCell_self (g : List (List (Option Char))) (r c : Int)
    (ch : Char) (y : Option Char)
    (hy : readCell (writeCell g r c ch) r c = some y) : y = some ch := by
  unfold writeCell readCell at hy
  by_cases hrc : 0 ≤ r ∧ 0 ≤ c
  · simp only [if_pos hrc] at hy
    rw [List.getElem?_set, if_pos rfl] at hy
    by_cases hlen : r.toNat < g.length
    · rw [if_pos hlen] at hy
      simp only [Option.some_bind] at hy
      rw [List.getElem?_set, if_pos rfl] at hy
      by_cases hclen : c.toNat < (g.getD r.toNat []).length
      · rw [if_pos hclen] at hy
        exact (Option.some.inj hy).symm
      · rw [if_neg hclen] at hy
        simp at hy
    · rw [if_neg hlen] at hy
      simp at hy
  · simp only [if_neg hrc] at hy
    simp at hy

theorem placeWordAux_cons (row col : Int) (dir : Dir)
    (g : List (List (Option Char))) (ch : Char) (rest : List Char) (i : Int) :
    placeWordAux row col dir g (ch :: rest) i =
      placeWordAux row col dir
        (writeCell g (wpos row col dir i).1 (wpos row col dir i).2 ch) rest (i + 1) := by
  cases dir <;> rfl

theorem readCell_placeWordAux_other (row col : Int) (dir : Dir) :
    ∀ (chars : List Char) (i : Int) (g : List (List (Option Char))) (r' c' : Int),
      (∀ t : Nat, t < chars.length → (r', c') ≠ wpos row col dir (i + t)) →
      readCell (placeWordAux row col dir g chars i) r' c' = readCell g r' c' := by
  intro chars
  induction chars with
  | nil => intro i g r' c' _; rfl
  | cons ch rest ih =>
    intro i g r' c' h
    have hrest : ∀ t : Nat, t < rest.length → (r', c') ≠ wpos row col dir ((i + 1) + t) := by
      intro t ht
      have h' := h (t + 1) (by simp only [List.length_cons]; omega)
      have hc : ((t + 1 : Nat) : Int) = (t : Int) + 1 := by push_cast; ring
      rw [hc] at h'
      have heq : i + ((t : Int) + 1) = i + 1 + (t : Int) := by ring
      rw [heq] at h'
      exact h'
    have h0 : (r', c') ≠ wpos row col dir i := by simpa using h 0 (by simp)
    rw [placeWordAux_cons,
      ih (i + 1) (writeCell g (wpos row col dir i).1 (wpos row col dir i).2 ch) r' c' hrest]
    exact readCell_writeCell_ne g _ _ r' c' ch (by rw [Prod.mk.eta]; exact h0)

theorem readCell_placeWordAux_at (row col : Int) (dir : Dir) :
    ∀ (chars : List Char) (i : Int) (g : List (List (Option Char))) (t : Nat),
      t < chars.length →
      ∀ y, readCell (placeWordAux row col dir g chars i)
          (wpos row col dir (i + t)).1 (wpos row col dir (i + t)).2 = some y →
        y = some (chars.getD t ' ') := by
  intro chars
  induction chars with
  | nil => intro i g t ht; simp at ht
  | cons ch rest ih =>
    intro i g t ht y hy
    rw [placeWordAux_cons] at hy
    cases t with
    | zero =>
      simp only [Nat.cast_zero, add_zero] at hy
      have hother : ∀ t' : Nat, t' < rest.length →
          ((wpos row col dir i).1, (wpos row col dir i).2) ≠
            wpos row col dir ((i + 1) + t') := by
        intro t' _ he
        rw [Prod.mk.eta] at he
        have := wpos_inj row col dir he
        omega
      rw [readCell_placeWordAux_other row col dir rest (i + 1) _ _ _ hother] at hy
      have := readCell_writeCell_self g (wpos row col dir i).1 (wpos row col dir i).2 ch y hy
      simpa using this
    | succ t' =>
      have heq : i + ((t' + 1 : Nat) : Int) = (i + 1) + (t' : Int) := by push_cast; ring
      rw [heq] at hy
      have := ih (i + 1) _ t' (by simp only [List.length_cons] at ht; omega) y hy
      simpa using this

theorem readCell_placeWord_at (g : List (List (Option Char))) (word : List Char)
    (r c : Int) (dir : Dir) (t : Nat) (ht : t < word.length) (y : Option Char)
    (hy : readCell (placeWord g word r c dir)
      (wpos r c dir t).1 (wpos r c dir t).2 = some y) :
    y = some (word.getD t ' ') := by
  apply readCell_placeWordAux_at r c dir word 0 g t ht y
  simpa [placeWord] using hy

theorem readCell_placeWord_other (g : List (List (Option Char))) (word : List Char)
    (r c : Int) (dir : Dir) (r' c' : Int)
    (h : ∀ t : Nat, t < word.length → (r', c') ≠ wpos r c dir t) :
    readCell (placeWord g word r c dir) r' c' = readCell g r' c' := by
  unfold placeWord
  apply readCell_placeWordAux_other
  intro t ht
  simpa using h t ht

/-! ### What a successful `canPlaceWord` says about the letter cells -/

theorem canPlaceAcross_spec (g : List (List (Option Char))) (row col height : Int) :
    ∀ (chars : List Char) (i : Int), canPlaceAcross g row col height chars i = true →
      ∀ t : Nat, t < chars.length →
        readCell g row (col + (i + t)) = some none ∨
        readCell g row (col + (i + t)) = some (some (chars.getD t ' ')) := by
  intro chars
  induction chars with
  | nil => intro i _ t ht; simp at ht
  | cons ch rest ih =>
    intro i h t ht
    simp only [canPlaceAcross] at h
    split at h
    · simp at h
    · rename_i hA
      split at h
      · simp at h
      · cases t with
        | zero =>
          simp only [Nat.cast_zero, add_zero, List.getD_cons_zero]
          rcases not_and_or.mp hA with h1 | h2
          · left; simpa using h1
          · right; simpa using h2
        | succ t' =>
          have heq : col + (i + ((t' + 1 : Nat) : Int)) = col + ((i + 1) + (t' : Int)) := by
            push_cast; ring
          rw [heq]
          simpa using ih (i + 1) h t' (by simp only [List.length_cons] at ht; omega)

theorem canPlaceDown_spec (g : List (List (Option Char))) (row col width : Int) :
    ∀ (chars : List Char) (i : Int), canPlaceDown g row col width chars i = true →
      ∀ t : Nat, t < chars.length →
        readCell g (row + (i + t)) col = some none ∨
        readCell g (row + (i + t)) col = some (some (chars.getD t ' ')) := by
  intro chars
  induction chars with
  | nil => intro i _ t ht; simp at ht
  | cons ch rest ih =>
    intro i h t ht
    simp only [canPlaceDown] at h
    split at h
    · simp at h
    · rename_i hA
      split at h
      · simp at h
      · cases t with
        | zero =>
          simp only [Nat.cast_zero, add_zero, List.getD_cons_zero]
          rcases not_and_or.mp hA with h1 | h2
          · left; simpa using h1
          · right; simpa using h2
        | succ t' =>
          have heq : row + (i + ((t' + 1 : Nat) : Int)) = row + ((i + 1) + (t' : Int)) := by
            push_cast; ring
          rw [heq]
          simpa using ih (i + 1) h t' (by simp only [List.length_cons] at ht; omega)

/-- If `canPlaceWord` succeeded, every letter cell of the candidate word is
inside the grid and currently holds `null` or the very letter the word would
write there. -/
theorem canPlaceWord_spec (g : List (List (Option Char))) (word : List Char)
    (r c : Int) (dir : Dir) (h : canPlaceWord g word r c dir = true)
    (t : Nat) (ht : t < word.length) :
    readCell g (wpos r c dir t).1 (wpos r c dir t).2 = some none ∨
    readCell g (wpos r c dir t).1 (wpos r c dir t).2 = some (some (word.getD t ' ')) := by
  cases dir with
  | across =>
    simp only [canPlaceWord] at h
    split at h
    · simp at h
    · split at h
      · simp at h
      · split at h
        · simp at h
        · have := canPlaceAcross_spec g r c g.length word 0 h t ht
          simpa [wpos] using this
  | down =>
    simp only [canPlaceWord] at h
    split at h
    · simp at h
    · split at h
      · simp at h
      · split at h
        · simp at h
        · have := canPlaceDown_spec g r c (g.headD []).length word 0 h t ht
          simpa [wpos] using this

/-! ### The letter-consistency invariant of the layout loop (claim C4) -/

/-- Every in-grid letter cell of a placed word holds that word's letter. -/
def lettersOnGrid (st : LayoutState) : Prop :=
  ∀ p ∈ st.placedWords, ∀ i : Nat, i < p.answer.length →
    ∀ y, readCell st.grid (cellPos p i).1 (cellPos p i).2 = some y →
      y = some (p.answer.getD i ' ')

/-- The conflict-freedom property of a placed-word list: no two placed words
assign different letters to the same grid cell. -/
def lettersConsistent (l : List PlacedWord) : Prop :=
  ∀ p ∈ l, ∀ q ∈ l, ∀ i j : Nat, i < p.answer.length → j < q.answer.length →
    cellPos p i = cellPos q j → p.answer.getD i ' ' = q.answer.getD j ' '

theorem lettersOnGrid_commit (st : LayoutState) (answer : List Char) (clue : String)
    (r c : Int) (dir : Dir)
    (hcan : canPlaceWord st.grid answer r c dir = true)
    (hinv : lettersOnGrid st) :
    lettersOnGrid ⟨placeWord st.grid answer r c dir,
      st.placedWords ++ [⟨answer, clue, r, c, dir⟩]⟩ := by
  intro p hp i hi y hy
  simp only [List.mem_append, List.mem_singleton] at hp
  rcases hp with hp | hp
  · by_cases hex : ∃ t : Nat, t < answer.length ∧ cellPos p i = wpos r c dir t
    · rcases hex with ⟨t, htl, hteq⟩
      rw [hteq] at hy
      have hyv : y = some (answer.getD t ' ') :=
        readCell_placeWord_at st.grid answer r c dir t htl y hy
      rcases canPlaceWord_spec st.grid answer r c dir hcan t htl with hpre | hpre
      · have := hinv p hp i hi none (by rw [hteq]; exact hpre)
        simp at this
      · have := hinv p hp i hi (some (answer.getD t ' ')) (by rw [hteq]; exact hpre)
        rw [hyv, this]
    · push_neg at hex
      have hother : ∀ t : Nat, t < answer.length →
          ((cellPos p i).1, (cellPos p i).2) ≠ wpos r c dir t := by
        intro t ht he
        rw [Prod.mk.eta] at he
        exact hex t ht he
      rw [readCell_placeWord_other st.grid answer r c dir
        (cellPos p i).1 (cellPos p i).2 hother] at hy
      exact hinv p hp i hi y hy
  · subst hp
    exact readCell_placeWord_at st.grid answer r c dir i hi y hy

theorem lettersConsistent_commit (st : LayoutState) (answer : List Char)
    (clue : String) (r c : Int) (dir : Dir)
    (hcan : canPlaceWord st.grid answer r c dir = true)
    (hinv : lettersOnGrid st) (hcons : lettersConsistent st.placedWords) :
    lettersConsistent (st.placedWords ++ [⟨answer, clue, r, c, dir⟩]) := by
  have key : ∀ q ∈ st.placedWords, ∀ i j : Nat, i < answer.length →
      j < q.answer.length → wpos r c dir i = cellPos q j →
      answer.getD i ' ' = q.answer.getD j ' ' := by
    intro q hq i j hi hj heq
    rcases canPlaceWord_spec st.grid answer r c dir hcan i hi with hpre | hpre
    · have := hinv q hq j hj none (by rw [← heq]; exact hpre)
      simp at this
    · have := hinv q hq j hj (some (answer.getD i ' ')) (by rw [← heq]; exact hpre)
      exact Option.some.inj this
  intro p hp q hq i j hi hj heq
  simp only [List.mem_append, List.mem_singleton] at hp hq
  rcases hp with hp | hp <;> rcases hq with hq | hq
  · exact hcons p hp q hq i j hi hj heq
  · subst hq
    exact (key p hp j i hj hi heq.symm).symm
  · subst hp
    exact key q hq i j hi hj heq
  · subst hp
    subst hq
    have hij : (i : Int) = (j : Int) := wpos_inj r c dir heq
    have hij' : i = j := by exact_mod_cast hij
    rw [hij']

/-- The combined C4 invariant on a layout state. -/
def layoutInv (st : LayoutState) : Prop :=
  lettersOnGrid st ∧ lettersConsistent st.placedWords

theorem layoutInv_commit (st : LayoutState) (answer : List Char) (clue : String)
    (r c : Int) (dir : Dir) (hcan : canPlaceWord st.grid answer r c dir = true)
    (h : layoutInv st) :
    layoutInv ⟨placeWord st.grid answer r c dir,
      st.placedWords ++ [⟨answer, clue, r, c, dir⟩]⟩ :=
  ⟨lettersOnGrid_commit st answer clue r c dir hcan h.1,
   lettersConsistent_commit st answer clue r c dir hcan h.1 h.2⟩

theorem tryKLoop_layoutInv (size : Nat) (w : WordEntry) (j : Nat) (ch : Char)
    (pw : PlacedWord) :
    ∀ (chars : List Char) (k : Nat) (st : LayoutState) (placed : Bool),
      layoutInv st → layoutInv (tryKLoop size w j ch pw chars k st placed).1 := by
  intro chars
  induction chars with
  | nil => intro k st placed h; simpa [tryKLoop] using h
  | cons c rest ih =>
    intro k st placed h
    simp only [tryKLoop]
    split
    · split
      · split
        · split
          · rename_i hcan
            exact ih (k + 1) _ true
              (layoutInv_commit st w.answer w.clue _ _ Dir.down hcan h)
          · exact ih (k + 1) st placed h
        · exact ih (k + 1) st placed h
      · split
        · split
          · rename_i hcan
            exact ih (k + 1) _ true
              (layoutInv_commit st w.answer w.clue _ _ Dir.across hcan h)
          · exact ih (k + 1) st placed h
        · exact ih (k + 1) st placed h
    · exact ih (k + 1) st placed h

theorem tryJLoop_layoutInv (size : Nat) (w : WordEntry) (pw : PlacedWord) :
    ∀ (chars : List Char) (j : Nat) (st : LayoutState) (placed : Bool),
      layoutInv st → layoutInv (tryJLoop size w pw chars j st placed).1 := by
  intro chars
  induction chars with
  | nil => intro j st placed h; simpa [tryJLoop] using h
  | cons ch rest ih =>
    intro j st placed h
    simp only [tryJLoop]
    split
    · exact h
    · exact ih (j + 1) _ _ (tryKLoop_layoutInv size w j ch pw pw.answer 0 st placed h)

theorem tryPlacedLoop_layoutInv (size : Nat) (w : WordEntry) :
    ∀ (pws : List PlacedWord) (st : LayoutState) (placed : Bool),
      layoutInv st → layoutInv (tryPlacedLoop size w pws st placed).1 := by
  intro pws
  induction pws with
  | nil => intro st placed h; simpa [tryPlacedLoop] using h
  | cons pw rest ih =>
    intro st placed h
    simp only [tryPlacedLoop]
    split
    · exact h
    · exact ih _ _ (tryJLoop_layoutInv size w pw w.answer 0 st placed h)

theorem passLoop_layoutInv (size : Nat) :
    ∀ (ws : List WordEntry) (st : LayoutState),
      layoutInv st → layoutInv (passLoop size ws st) := by
  intro ws
  induction ws with
  | nil => intro st h; simpa [passLoop] using h
  | cons w rest ih =>
    intro st h
    simp only [passLoop]
    split
    · exact ih st h
    · exact ih _ (tryPlacedLoop_layoutInv size w st.placedWords st false h)

theorem layoutInv_init (answer : List Char) (clue : String) (r c : Int)
    (dir : Dir) (g : List (List (Option Char))) :
    layoutInv ⟨placeWord g answer r c dir, [⟨answer, clue, r, c, dir⟩]⟩ := by
  constructor
  · intro p hp i hi y hy
    simp only [List.mem_singleton] at hp
    subst hp
    exact readCell_placeWord_at g answer r c dir i hi y hy
  · intro p hp q hq i j hi hj heq
    simp only [List.mem_singleton] at hp hq
    subst hp
    subst hq
    have hij : (i : Int) = (j : Int) := wpos_inj r c dir heq
    have hij' : i = j := by exact_mod_cast hij
    rw [hij']

/-- **C4** (amended part, proved): in the placed-word list returned by
`generateGridLayout`, no two placed words assign different letters to the
same grid cell. -/
theorem crossword_no_conflicting_letters (wordsData : List WordEntry) (size : Nat) :
    lettersConsistent (generateGridLayout wordsData size) := by
  cases hs : wordsData.mergeSort (fun a b => b.answer.length ≤ a.answer.length) with
  | nil =>
    have hunfold : generateGridLayout wordsData size = [] := by
      rw [generateGridLayout, hs]
    rw [hunfold]
    intro p hp
    simp at hp
  | cons first remaining =>
    have hunfold : generateGridLayout wordsData size =
        (passLoop size remaining (passLoop size remaining
          ⟨placeWord (List.replicate size (List.replicate size none)) first.answer
            ((size : Int) / 2) (Int.fdiv ((size : Int) - first.answer.length) 2) Dir.across,
           [⟨first.answer, first.clue, (size : Int) / 2,
             Int.fdiv ((size : Int) - first.answer.length) 2, Dir.across⟩]⟩)).placedWords := by
      rw [generateGridLayout, hs]
    rw [hunfold]
    exact (passLoop_layoutInv size remaining _
      (passLoop_layoutInv size remaining _
        (layoutInv_init first.answer first.clue _ _ Dir.across _))).2

/-- The end-to-end part of the claim, as a violation predicate: some placed
word `p` has a same-direction word `q` whose letter cells include the cell
immediately before `p`'s start or immediately after `p`'s end along its
axis. -/
def endToEndTouch (out : List PlacedWord) : Prop :=
  ∃ p ∈ out, ∃ q ∈ out, p.direction = q.direction ∧
    ∃ j ∈ List.range q.answer.length,
      cellPos q j = wpos p.row p.col p.direction (-1) ∨
      cellPos q j = wpos p.row p.col p.direction p.answer.length

unseal List.merge List.mergeSort in
set_option maxRecDepth 100000 in
/-- Counterexample to C4: on the word list `[A, BB, AA, AB]` with grid size
4 the returned layout places `A` across at `(1,1)` and `AA` across at
`(1,0)`, so the cell immediately before `A`'s start, `(1,0)`, is a letter
cell of the same-direction word `AA` — the second pass places words into
cells whose neighbor checks only held on the first pass's grid. -/
theorem crossword_end_to_end_touch :
    endToEndTouch (generateGridLayout
      [⟨['A'], ""⟩, ⟨['B', 'B'], ""⟩, ⟨['A', 'A'], ""⟩, ⟨['A', 'B'], ""⟩] 4) := by
  unfold endToEndTouch
  decide

/-! ### Bounds of the returned placements (claim C10) -/

/-- A placed word lies entirely inside the `size × size` grid: `row` and
`col` are nonnegative, and for a nonempty answer the cross coordinate is
below `size` and the last cell index along the word's axis is strictly
below `size`. -/
def withinGrid (size : Nat) (p : PlacedWord) : Prop :=
  0 ≤ p.row ∧ 0 ≤ p.col ∧
  (p.answer ≠ [] → p.direction = Dir.across →
    p.row < (size : Int) ∧ p.col + p.answer.length ≤ (size : Int)) ∧
  (p.answer ≠ [] → p.direction = Dir.down →
    p.col < (size : Int) ∧ p.row + p.answer.length ≤ (size : Int))

theorem tryKLoop_withinGrid (size : Nat) (w : WordEntry) (j : Nat) (ch : Char)
    (pw : PlacedWord) (hpw : withinGrid size pw) :
    ∀ (chars : List Char) (k : Nat) (st : LayoutState) (placed : Bool),
      k + chars.length = pw.answer.length →
      (∀ p ∈ st.placedWords, withinGrid size p) →
      ∀ p ∈ (tryKLoop size w j ch pw chars k st placed).1.placedWords,
        withinGrid size p := by
  intro chars
  induction chars with
  | nil => intro k st placed _ h; simpa [tryKLoop] using h
  | cons c rest ih =>
    intro k st placed hk h
    have hk' : (k + 1) + rest.length = pw.answer.length := by
      simp only [List.length_cons] at hk; omega
    have hkpw : k < pw.answer.length := by
      simp only [List.length_cons] at hk; omega
    have hpwne : pw.answer ≠ [] := by
      intro hnil
      rw [hnil] at hkpw
      simp at hkpw
    simp only [tryKLoop]
    split
    · split
      · rename_i hdir
        split
        · rename_i hb
          split
          · apply ih (k + 1) _ true hk'
            intro p hp
            simp only [List.mem_append, List.mem_singleton] at hp
            rcases hp with hp | hp
            · exact h p hp
            · subst hp
              obtain ⟨hb1, hb2⟩ := hb
              obtain ⟨hac1, hac2⟩ := hpw.2.2.1 hpwne hdir
              have hc0 := hpw.2.1
              simp only [withinGrid]
              refine ⟨by omega, by omega, ?_, ?_⟩
              · intro _ hcontra
                exact Dir.noConfusion hcontra
              · intro _ _
                constructor <;> omega
          · exact ih (k + 1) st placed hk' h
        · exact ih (k + 1) st placed hk' h
      · rename_i hdir
        split
        · rename_i hb
          split
          · apply ih (k + 1) _ true hk'
            intro p hp
            simp only [List.mem_append, List.mem_singleton] at hp
            rcases hp with hp | hp
            · exact h p hp
            · subst hp
              obtain ⟨hb1, hb2⟩ := hb
              obtain ⟨hdn1, hdn2⟩ := hpw.2.2.2 hpwne hdir
              have hr0 := hpw.1
              simp only [withinGrid]
              refine ⟨by omega, by omega, ?_, ?_⟩
              · intro _ _
                constructor <;> omega
              · intro _ hcontra
                exact Dir.noConfusion hcontra
          · exact ih (k + 1) st placed hk' h
        · exact ih (k + 1) st placed hk' h
    · exact ih (k + 1) st placed hk' h

theorem tryJLoop_withinGrid (size : Nat) (w : WordEntry) (pw : PlacedWord)
    (hpw : withinGrid size pw) :
    ∀ (chars : List Char) (j : Nat) (st : LayoutState) (placed : Bool),
      (∀ p ∈ st.placedWords, withinGrid size p) →
      ∀ p ∈ (tryJLoop size w pw chars j st placed).1.placedWords,
        withinGrid size p := by
  intro chars
  induction chars with
  | nil => intro j st placed h; simpa [tryJLoop] using h
  | cons ch rest ih =>
    intro j st placed h
    simp only [tryJLoop]
    split
    · exact h
    · exact ih (j + 1) _ _
        (tryKLoop_withinGrid size w j ch pw hpw pw.answer 0 st placed (by simp) h)

theorem tryPlacedLoop_withinGrid (size : Nat) (w : WordEntry) :
    ∀ (pws : List PlacedWord) (st : LayoutState) (placed : Bool),
      (∀ pw ∈ pws, withinGrid size pw) →
      (∀ p ∈ st.placedWords, withinGrid size p) →
      ∀ p ∈ (tryPlacedLoop size w pws st placed).1.placedWords,
        withinGrid size p := by
  intro pws
  induction pws with
  | nil => intro st placed _ h; simpa [tryPlacedLoop] using h
  | cons pw rest ih =>
    intro st placed hpws h
    simp only [tryPlacedLoop]
    split
    · exact h
    · exact ih _ _ (fun q hq => hpws q (List.mem_cons_of_mem pw hq))
        (tryJLoop_withinGrid size w pw (hpws pw (List.mem_cons_self pw rest))
          w.answer 0 st placed h)

theorem passLoop_withinGrid (size : Nat) :
    ∀ (ws : List WordEntry) (st : LayoutState),
      (∀ p ∈ st.placedWords, withinGrid size p) →
      ∀ p ∈ (passLoop size ws st).placedWords, withinGrid size p := by
  intro ws
  induction ws with
  | nil => intro st h; simpa [passLoop] using h
  | cons w rest ih =>
    intro st h
    simp only [passLoop]
    split
    · exact ih st h
    · exact ih _ (tryPlacedLoop_withinGrid size w st.placedWords st false h h)

/-- **C10**: if every answer in the input word list has length at most the
grid size, every placed word in the crossword layout's output lies entirely
within the `size × size` grid — its `row` and `col` are at least `0` and its
cells' indices stay strictly below `size`. -/
theorem crossword_in_bounds (wordsData : List WordEntry) (size : Nat)
    (hlen : ∀ w ∈ wordsData, w.answer.length ≤ size) :
    ∀ p ∈ generateGridLayout wordsData size, withinGrid size p := by
  cases hs : wordsData.mergeSort (fun a b => b.answer.length ≤ a.answer.length) with
  | nil =>
    have hunfold : generateGridLayout wordsData size = [] := by
      rw [generateGridLayout, hs]
    rw [hunfold]
    intro p hp
    simp at hp
  | cons first remaining =>
    have hperm := List.mergeSort_perm wordsData
      (fun a b => decide (b.answer.length ≤ a.answer.length))
    have hfirst_mem : first ∈ wordsData := by
      apply hperm.mem_iff.mp
      rw [hs]
      exact List.mem_cons_self first remaining
    have hfl : first.answer.length ≤ size := hlen first hfirst_mem
    have hfd : Int.fdiv ((size : Int) - first.answer.length) 2 =
        ((size : Int) - first.answer.length) / 2 :=
      Int.fdiv_eq_ediv _ (by norm_num)
    have hw0 : withinGrid size ⟨first.answer, first.clue, (size : Int) / 2,
        Int.fdiv ((size : Int) - first.answer.length) 2, Dir.across⟩ := by
      simp only [withinGrid, hfd]
      refine ⟨by omega, by omega, ?_, ?_⟩
      · intro hne _
        have h1 : 0 < first.answer.length := List.length_pos.mpr hne
        constructor <;> omega
      · intro _ hd
        exact Dir.noConfusion hd
    have hunfold : generateGridLayout wordsData size =
        (passLoop size remaining (passLoop size remaining
          ⟨placeWord (List.replicate size (List.replicate size none)) first.answer
            ((size : Int) / 2) (Int.fdiv ((size : Int) - first.answer.length) 2) Dir.across,
           [⟨first.answer, first.clue, (size : Int) / 2,
             Int.fdiv ((size : Int) - first.answer.length) 2, Dir.across⟩]⟩)).placedWords := by
      rw [generateGridLayout, hs]
    rw [hunfold]
    apply passLoop_withinGrid size remaining
    apply passLoop_withinGrid size remaining
    intro p hp
    simp only [List.mem_singleton] at hp
    subst hp
    exact hw0

/-- Witness for C10: both answers in `[LOGIC, GRID]` fit in a 12-wide grid,
and the theorem then bounds every placement of that layout call. -/
theorem crossword_in_bounds_witness :
    (∀ w ∈ ([⟨"LOGIC".data, "c1"⟩, ⟨"GRID".data, "c2"⟩] : List WordEntry),
      w.answer.length ≤ 12) ∧
    ∀ p ∈ generateGridLayout [⟨"LOGIC".data, "c1"⟩, ⟨"GRID".data, "c2"⟩] 12,
      withinGrid 12 p :=
  ⟨by decide,
   crossword_in_bounds [⟨"LOGIC".data, "c1"⟩, ⟨"GRID".data, "c2"⟩] 12 (by decide)⟩

end MindGym
